import Mathlib

/-!
Verification of the geowiki-lib-app state/bootstrap layer.

Shallow embedding of the repository's `State` class (URL codec + state
store) and `App` bootstrap class, together with the JS runtime primitives
they use (`encodeURIComponent`/`decodeURIComponent`, the `query-string`
library, `Number` formatting, `setTimeout` as an explicit task).

Modelling conventions:
* JS numbers are modelled as scaled decimals (integer mantissa over a power
  of ten, `Dec`); every number appearing in the claims is a finite decimal,
  so arithmetic and `toFixed` are exact.
* JS strings are Lean strings; internally we work on `List Char`.
  Percent-encoding is modelled at codepoint granularity: the
  escape/no-escape classification of `encodeURIComponent` and the strict
  encoder of `query-string` are exact for ASCII (which is all the special
  characters the codec manipulates), and losslessness is preserved for all
  codepoints; the UTF-8 byte-splitting of non-ASCII codepoints is
  abstracted into a single self-delimiting escape.
* Mutation of JS objects is rendered functionally; for the frame claim
  about `stringify` a small explicit heap of objects is used.
* `setTimeout(fn, 0)` is rendered as an explicit scheduled task in the
  effect list returned by `apply`; running the task performs the listener
  broadcast.
-/

namespace Geowiki

instance {ε α : Type} [DecidableEq ε] [DecidableEq α] : DecidableEq (Except ε α) := fun a b =>
  match a, b with
  | .ok x, .ok y => decidable_of_iff (x = y) (by simp)
  | .error x, .error y => decidable_of_iff (x = y) (by simp)
  | .ok _, .error _ => isFalse (by simp)
  | .error _, .ok _ => isFalse (by simp)

/-! ## Digits and hexadecimal characters -/

def digitChar (n : Nat) : Char :=
  match n with
  | 0 => '0' | 1 => '1' | 2 => '2' | 3 => '3' | 4 => '4'
  | 5 => '5' | 6 => '6' | 7 => '7' | 8 => '8' | _ => '9'

def hexDigitChar (n : Nat) : Char :=
  match n with
  | 0 => '0' | 1 => '1' | 2 => '2' | 3 => '3' | 4 => '4'
  | 5 => '5' | 6 => '6' | 7 => '7' | 8 => '8' | 9 => '9'
  | 10 => 'A' | 11 => 'B' | 12 => 'C' | 13 => 'D' | 14 => 'E' | _ => 'F'

def decHexDigit (c : Char) : Option Nat :=
  if 48 ≤ c.toNat ∧ c.toNat ≤ 57 then some (c.toNat - 48)
  else if 65 ≤ c.toNat ∧ c.toNat ≤ 70 then some (c.toNat - 55)
  else if 97 ≤ c.toNat ∧ c.toNat ≤ 102 then some (c.toNat - 87)
  else none

def hexByte (n : Nat) : List Char :=
  [hexDigitChar (n / 16 % 16), hexDigitChar (n % 16)]

def hex6 (n : Nat) : List Char :=
  [hexDigitChar (n / 16 ^ 5 % 16), hexDigitChar (n / 16 ^ 4 % 16),
   hexDigitChar (n / 16 ^ 3 % 16), hexDigitChar (n / 16 ^ 2 % 16),
   hexDigitChar (n / 16 % 16), hexDigitChar (n % 16)]

/-! ## Percent-encoders

`uriUnreserved` is the set of characters `encodeURIComponent` leaves alone:
letters, digits, `- _ . ! ~ * ' ( )`.  The `query-string` library encodes
in strict mode, additionally escaping `! ' ( ) *`.  The source
post-processes the query part, restoring `/ , :` (see `replace3`); the
composite behaviour equals an encoder that also keeps `/ , :`. -/

def isAlphaNum (c : Char) : Bool :=
  (48 ≤ c.toNat && c.toNat ≤ 57) || (65 ≤ c.toNat && c.toNat ≤ 90) ||
    (97 ≤ c.toNat && c.toNat ≤ 122)

def uriUnreserved (c : Char) : Bool :=
  isAlphaNum c || c.toNat == 45 || c.toNat == 95 || c.toNat == 46 ||
    c.toNat == 33 || c.toNat == 126 || c.toNat == 42 || c.toNat == 39 ||
    c.toNat == 40 || c.toNat == 41

def strictUnreserved (c : Char) : Bool :=
  isAlphaNum c || c.toNat == 45 || c.toNat == 95 || c.toNat == 46 ||
    c.toNat == 126

def relaxedUnreserved (c : Char) : Bool :=
  strictUnreserved c || c.toNat == 47 || c.toNat == 44 || c.toNat == 58

def encCharWith (keep : Char → Bool) (c : Char) : List Char :=
  if keep c then [c]
  else if c.toNat < 256 then '%' :: hexByte c.toNat
  else '%' :: 'u' :: hex6 c.toNat

def encWith (keep : Char → Bool) (l : List Char) : List Char :=
  l.flatMap (encCharWith keep)

/-- Model of the JS builtin `encodeURIComponent`, on character lists. -/
def encodeURIComponentL : List Char → List Char :=
  encWith uriUnreserved

/-- The strict encoder used by `query-string`'s `stringify`. -/
def qsEncodeL : List Char → List Char :=
  encWith strictUnreserved

/-! ## Percent-decoders

`decodeURIComponent` (throws `URIError` on a malformed escape) and the
graceful decoder used inside `query-string`'s `parse` (leaves malformed
escapes in place). -/

def strictDecodeAux : Nat → List Char → Option (List Char)
  | 0, _ => some []
  | fuel + 1, l =>
    match l with
    | [] => some []
    | c :: rest =>
      if c.toNat == 37 then
        match rest with
        | a :: b :: r2 =>
          if a.toNat == 117 then
            match r2 with
            | h2 :: h3 :: h4 :: h5 :: h6 :: r3 =>
              match decHexDigit b, decHexDigit h2, decHexDigit h3,
                    decHexDigit h4, decHexDigit h5, decHexDigit h6 with
              | some x1, some x2, some x3, some x4, some x5, some x6 =>
                (strictDecodeAux fuel r3).map
                  (Char.ofNat (((((x1 * 16 + x2) * 16 + x3) * 16 + x4) * 16 + x5) * 16 + x6) :: ·)
              | _, _, _, _, _, _ => none
            | _ => none
          else
            match decHexDigit a, decHexDigit b with
            | some x, some y => (strictDecodeAux fuel r2).map (Char.ofNat (16 * x + y) :: ·)
            | _, _ => none
        | _ => none
      else (strictDecodeAux fuel rest).map (c :: ·)

def strictDecodeL (l : List Char) : Option (List Char) :=
  strictDecodeAux l.length l

def gracefulDecodeAux : Nat → List Char → List Char
  | 0, _ => []
  | fuel + 1, l =>
    match l with
    | [] => []
    | c :: rest =>
      if c.toNat == 37 then
        match rest with
        | a :: b :: r2 =>
          if a.toNat == 117 then
            match r2 with
            | h2 :: h3 :: h4 :: h5 :: h6 :: r3 =>
              match decHexDigit b, decHexDigit h2, decHexDigit h3,
                    decHexDigit h4, decHexDigit h5, decHexDigit h6 with
              | some x1, some x2, some x3, some x4, some x5, some x6 =>
                Char.ofNat (((((x1 * 16 + x2) * 16 + x3) * 16 + x4) * 16 + x5) * 16 + x6) ::
                  gracefulDecodeAux fuel r3
              | _, _, _, _, _, _ => c :: gracefulDecodeAux fuel rest
            | _ => c :: gracefulDecodeAux fuel rest
          else
            match decHexDigit a, decHexDigit b with
            | some x, some y => Char.ofNat (16 * x + y) :: gracefulDecodeAux fuel r2
            | _, _ => c :: gracefulDecodeAux fuel rest
        | _ => c :: gracefulDecodeAux fuel rest
      else c :: gracefulDecodeAux fuel rest

def gracefulDecodeL (l : List Char) : List Char :=
  gracefulDecodeAux l.length l

/-! ## The `/ , :` restoration step

The source runs three sequential global replacements on the encoded query
string: `%2F` becomes `/`, `%2C` becomes `,`, `%3A` becomes `:`.  On
strings produced by the percent-encoder (where `%` starts only well-formed
escapes) the three sequential passes coincide with this single scan. -/

def replace3 : List Char → List Char
  | [] => []
  | [c] => [c]
  | [c, d] => [c, d]
  | c :: d :: e :: r =>
    if c == '%' && d == '2' && e == 'F' then '/' :: replace3 r
    else if c == '%' && d == '2' && e == 'C' then ',' :: replace3 r
    else if c == '%' && d == '3' && e == 'A' then ':' :: replace3 r
    else c :: replace3 (d :: e :: r)

/-! ## Splitting and joining -/

def splitChar (c : Char) : List Char → List (List Char)
  | [] => [[]]
  | x :: r =>
    if x == c then [] :: splitChar c r
    else
      match splitChar c r with
      | h :: t => (x :: h) :: t
      | [] => [[x]]

def joinChar (c : Char) : List (List Char) → List Char
  | [] => []
  | [p] => p
  | p :: rest => p ++ c :: joinChar c rest

def firstIdx (c : Char) : List Char → Option Nat
  | [] => none
  | x :: r => if x == c then some 0 else (firstIdx c r).map (· + 1)

/-! ## JS numbers as scaled decimals

A `Dec` denotes the rational `m / 10 ^ e`.  All numbers handled by the
codec in the claims are finite decimals, for which this model is exact;
binary-float artifacts are out of scope. -/

structure Dec where
  m : Int
  e : Nat
deriving DecidableEq

/-- Decimal-digit rendering of a natural number (fuel-based so that it
reduces by `decide`/`rfl`). -/
def natToStrAux : Nat → Nat → List Char
  | 0, _ => []
  | fuel + 1, n =>
    if n < 10 then [digitChar n]
    else natToStrAux fuel (n / 10) ++ [digitChar (n % 10)]

def natToStr (n : Nat) : List Char := natToStrAux (n + 1) n

def intToStr (i : Int) : List Char :=
  if i < 0 then '-' :: natToStr i.natAbs else natToStr i.natAbs

/-- Left-pad with zeros to `w` characters. -/
def padZeros (l : List Char) (w : Nat) : List Char :=
  List.replicate (w - l.length) '0' ++ l

/-- `Number.prototype.toFixed(f)`: round half away from zero toward `+∞`
(the JS spec picks the larger candidate integer on ties), then render with
exactly `f` fraction digits. -/
def Dec.toFixed (d : Dec) (f : Nat) : List Char :=
  let n : Int := Int.fdiv (2 * d.m * (10 : Int) ^ f + (10 : Int) ^ d.e) (2 * (10 : Int) ^ d.e)
  if f == 0 then intToStr n
  else
    (if n < 0 then ['-'] else []) ++ natToStr (n.natAbs / 10 ^ f) ++
      '.' :: padZeros (natToStr (n.natAbs % 10 ^ f)) f

/-- Strip trailing fractional zeros: `⟨1500, 3⟩` (i.e. `1.500`) becomes
`⟨15, 1⟩` (i.e. `1.5`). -/
def Dec.normAux : Nat → Int → Dec
  | 0, m => ⟨m, 0⟩
  | e + 1, m => if m % 10 == 0 then Dec.normAux e (m / 10) else ⟨m, e + 1⟩

def Dec.normalize (d : Dec) : Dec := Dec.normAux d.e d.m

/-- Default JS `Number`-to-`String` conversion for numbers in the
non-exponent range (all numbers in the claims). -/
def Dec.toStr (d : Dec) : List Char :=
  let d := d.normalize
  if d.e == 0 then intToStr d.m
  else
    (if d.m < 0 then ['-'] else []) ++ natToStr (d.m.natAbs / 10 ^ d.e) ++
      '.' :: padZeros (natToStr (d.m.natAbs % 10 ^ d.e)) d.e

/-- `a > n` for a decimal against a natural number (NaN handled by the
caller). -/
def Dec.gtNat (d : Dec) (n : Nat) : Bool :=
  d.m > (n : Int) * (10 : Int) ^ d.e

/-! ### `parseFloat`

JS `parseFloat` parses the longest prefix of the form
`[+-]? digits? (. digits?)?` and returns NaN when that prefix contains no
digit.  (Exponent suffixes and leading whitespace never occur in the
inputs the codec produces and are not modelled.) -/

/-- Value and count of the leading digit run (most significant first). -/
def digitRun : List Char → Nat → Nat × Nat × List Char
  | [], acc => (acc, 0, [])
  | c :: r, acc =>
    if 48 ≤ c.toNat ∧ c.toNat ≤ 57 then
      let (v, n, rest) := digitRun r (acc * 10 + (c.toNat - 48))
      (v, n + 1, rest)
    else (acc, 0, c :: r)

def parseFloatL (l : List Char) : Option Dec :=
  let (sign, l1) : Int × List Char :=
    match l with
    | '-' :: r => (-1, r)
    | '+' :: r => (1, r)
    | r => (1, r)
  let (i, ni, l2) := digitRun l1 0
  let (fv, nf, _) :=
    match l2 with
    | '.' :: r => digitRun r 0
    | _ => (0, 0, l2)
  if ni == 0 && nf == 0 then none
  else some ⟨sign * ((i * 10 ^ nf + fv : Nat) : Int), nf⟩

/-! ## JS values and objects -/

inductive Value where
  | str (s : String)
  | num (d : Dec)
  | nan
  | null
deriving DecidableEq

/-- JS truthiness of the values the codec handles (`undefined` is rendered
as an absent key). -/
def truthy : Value → Bool
  | .str s => !s.isEmpty
  | .num d => d.m != 0
  | .nan => false
  | .null => false

/-- JS `String(v)` conversion. -/
def valueToStr : Value → List Char
  | .str s => s.data
  | .num d => d.toStr
  | .nan => "NaN".data
  | .null => "null".data

/-- `parseFloat` applied to a JS value (the argument is coerced to a
string first; `parseFloat(null)`, `parseFloat(undefined)` are NaN). -/
def parseFloatV : Value → Value
  | .num d => .num d
  | .str s =>
    match parseFloatL s.data with
    | some d => .num d
    | none => .nan
  | .nan => .nan
  | .null => .nan

/-- JS `Number(v)` coercion used by `>` comparisons; `none` denotes NaN
(every comparison against NaN is false). -/
def numberOfValue : Value → Option Dec
  | .num d => some d
  | .nan => none
  | .null => some ⟨0, 0⟩
  | .str s =>
    match s.data with
    | [] => some ⟨0, 0⟩
    | l =>
      let (sign, l1) : Int × List Char :=
        match l with
        | '-' :: r => (-1, r)
        | '+' :: r => (1, r)
        | r => (1, r)
      let (i, ni, l2) := digitRun l1 0
      match l2 with
      | [] => if ni == 0 then none else some ⟨sign * (i : Int), 0⟩
      | '.' :: r =>
        let (fv, nf, l3) := digitRun r 0
        if l3 ≠ [] ∨ (ni == 0 && nf == 0) then none
        else some ⟨sign * ((i * 10 ^ nf + fv : Nat) : Int), nf⟩
      | _ => none

/-- `state.zoom > n` in JS (false when the coercion yields NaN). -/
def jsGT (v : Value) (n : Nat) : Bool :=
  match numberOfValue v with
  | some d => d.gtNat n
  | none => false

/-- JS object with string keys: association list in insertion order, no
duplicate keys maintained by `set`/`del`. -/
abbrev Jso := List (String × Value)

def Jso.get : Jso → String → Option Value
  | [], _ => none
  | (k0, v) :: t, k => if k0 == k then some v else Jso.get t k

/-- `o[k] = v`: update in place when the key exists (JS keeps the original
insertion position), append otherwise. -/
def Jso.set : Jso → String → Value → Jso
  | [], k, v => [(k, v)]
  | (k0, v0) :: t, k, v =>
    if k0 == k then (k, v) :: t else (k0, v0) :: Jso.set t k v

/-- `delete o[k]`. -/
def Jso.del : Jso → String → Jso
  | [], _ => []
  | (k0, v0) :: t, k => if k0 == k then Jso.del t k else (k0, v0) :: Jso.del t k

def Jso.keys (o : Jso) : List String := o.map Prod.fst

/-- Extensional equality of two objects as key-value maps (JS deep
equality of plain objects ignores key order). -/
def Jso.equiv (a b : Jso) : Prop :=
  ∀ k, a.get k = b.get k

/-! ## Parameter formatters

`State#parameters`: per-key `{stringify, parse}` function pairs. -/

structure Formatter where
  stringify : Option (Value → Value) := none
  parse : Option (Value → Value) := none

abbrev Params := List (String × Formatter)

/-- One step of the `stringify`-side formatter loop:
`if (state[k] && parameter.stringify) state[k] = parameter.stringify(state[k])`. -/
def fmtStepS (st : Jso) (p : String × Formatter) : Jso :=
  match st.get p.1, p.2.stringify with
  | some v, some f => if truthy v then st.set p.1 (f v) else st
  | _, _ => st

/-- One step of the `parse`-side formatter loop. -/
def fmtStepP (st : Jso) (p : String × Formatter) : Jso :=
  match st.get p.1, p.2.parse with
  | some v, some f => if truthy v then st.set p.1 (f v) else st
  | _, _ => st

/-! ## The `query-string` library (external collaborator)

Modelled from its documented default behaviour: `stringify` sorts keys
alphabetically, strict-encodes key and value, renders `null` as a bare
key; `parse` splits on `&` then on the first `=`, decoding gracefully
(malformed escapes are left in place, nothing throws).  Duplicate keys
(which produce arrays in the library) never arise from this codec's
output and are modelled as last-write-wins. -/

def strLtL : List Char → List Char → Bool
  | [], [] => false
  | [], _ :: _ => true
  | _ :: _, [] => false
  | a :: as, b :: bs =>
    if a.toNat < b.toNat then true
    else if b.toNat < a.toNat then false
    else strLtL as bs

def insertByKey (p : String × Value) : Jso → Jso
  | [] => [p]
  | q :: t => if strLtL q.1.data p.1.data then q :: insertByKey p t else p :: q :: t

def sortByKeys (o : Jso) : Jso := o.foldr insertByKey []

def qsPair (k : String) (v : Value) : List Char :=
  match v with
  | .null => qsEncodeL k.data
  | v => qsEncodeL k.data ++ '=' :: qsEncodeL (valueToStr v)

def qsStringify (o : Jso) : List Char :=
  joinChar '&' ((sortByKeys o).map (fun p => qsPair p.1 p.2))

def qsParseOne (o : Jso) (part : List Char) : Jso :=
  match firstIdx '=' part with
  | none => o.set (String.mk (gracefulDecodeL part)) .null
  | some i =>
    o.set (String.mk (gracefulDecodeL (part.take i)))
      (.str (String.mk (gracefulDecodeL (part.drop (i + 1)))))

def qsParse (l : List Char) : Jso :=
  ((splitChar '&' l).filter (fun p => !p.isEmpty)).foldl qsParseOne []

/-- The net encoding of one `key=value` pair after the `%2F`/`%2C`/`%3A`
restoration: strict encoding with `/ , :` left readable. -/
def relPair (kv : String × Value) : List Char :=
  encWith relaxedUnreserved kv.1.data ++ '=' :: encWith relaxedUnreserved (valueToStr kv.2)

/-- The net encoding of one `key=value` pair of arbitrary value after the
`%2F`/`%2C`/`%3A` restoration (`null` renders as a bare key). -/
def relPairV (kv : String × Value) : List Char :=
  match kv.2 with
  | .null => encWith relaxedUnreserved kv.1.data
  | v => encWith relaxedUnreserved kv.1.data ++ '=' :: encWith relaxedUnreserved (valueToStr v)

/-! ## The URL codec (`State#stringify` / `State#parse`) -/

inductive JsErr where
  | uriError
  | typeError
deriving DecidableEq

/-- The zoom-to-precision lookup table of `stringify`. -/
def locPrecision (zoom : Value) : Nat :=
  if jsGT zoom 16 then 5
  else if jsGT zoom 8 then 4
  else if jsGT zoom 4 then 3
  else if jsGT zoom 2 then 2
  else if jsGT zoom 1 then 1
  else 0

/-- `v.toFixed(f)`; a `TypeError` on non-numbers (JS numbers, NaN
included, have `toFixed`; strings and `null` do not). -/
def Value.toFixedE (v : Value) (f : Nat) : Except JsErr (List Char) :=
  match v with
  | .num d => .ok (d.toFixed f)
  | .nan => .ok "NaN".data
  | _ => .error .typeError

/-- The `path` block of `stringify`: if `state.path` is truthy,
URL-escape it into the link head and delete the key. -/
def pathStage (s : Jso) : List Char × Jso :=
  match s.get "path" with
  | some v => if truthy v then (encodeURIComponentL (valueToStr v), s.del "path") else ([], s)
  | none => ([], s)

/-- The location block of `stringify`: when `zoom`, `lat`, `lon` are all
truthy, emit `map=<zoom.toFixed(0)>/<lat.toFixed(p)>/<lon.toFixed(p)>`
and delete the three keys. -/
def mapStage (s : Jso) : Except JsErr (Option (List Char) × Jso) :=
  let zoomV := (s.get "zoom").getD .null
  let latV := (s.get "lat").getD .null
  let lonV := (s.get "lon").getD .null
  let p := if truthy zoomV then locPrecision zoomV else 5
  if truthy zoomV && truthy latV && truthy lonV then
    match Value.toFixedE (parseFloatV zoomV) 0, Value.toFixedE latV p, Value.toFixedE lonV p with
    | .ok zs, .ok las, .ok los =>
      .ok (some ("map=".data ++ zs ++ '/' :: las ++ '/' :: los),
        ((s.del "zoom").del "lat").del "lon")
    | .error e, _, _ => .error e
    | _, .error e, _ => .error e
    | _, _, .error e => .error e
  else .ok (none, s)

/-- `state = Object.fromEntries(Object.entries(state).filter(([k, v]) => v !== null))`. -/
def filterNulls (s : Jso) : Jso :=
  s.filter (fun kv => kv.2 != Value.null)

/-- Final link assembly of `stringify` (separators added only between
nonempty halves). -/
def assembleLink (link1 : List Char) (mseg : Option (List Char)) (s4 : Jso) : List Char :=
  let link2 :=
    match mseg with
    | some seg => if link1.isEmpty then seg else link1 ++ '&' :: seg
    | none => link1
  let newHash := replace3 (qsStringify s4)
  if newHash.isEmpty then link2
  else if link2.isEmpty then newHash
  else link2 ++ '&' :: newHash

/-- `State#stringify` applied to an already-resolved state object (the
source starts from a spread copy `{...state}`, so the caller's object is
not used after this point; the mutation-level rendering is
`stringifyHeap` below). -/
def stringifyOn (ps : Params) (s0 : Jso) : Except JsErr String :=
  let (link1, s1) := pathStage s0
  match mapStage s1 with
  | .error e => .error e
  | .ok (mseg, s2) =>
    let s3 := filterNulls s2
    let s4 := ps.foldl fmtStepS s3
    .ok (String.mk (assembleLink link1 mseg s4))

/-- `link.replace(/^#+/, '')`. -/
def stripHash (s : String) : String :=
  String.mk (s.data.dropWhile (fun c => c == '#'))

/-- The single `=`/`&` scan of `parse`, yielding (raw path substring,
raw parameters substring). -/
def parseSplit (l : List Char) : List Char × List Char :=
  if l.isEmpty then ([], [])
  else
    match firstIdx '=' l with
    | none =>
      match firstIdx '&' l with
      | none => (l, [])
      | some a => (l.take a, [])
    | some e =>
      match firstIdx '&' l with
      | none => ([], l)
      | some a => if a < e then (l.take a, l.drop (a + 1)) else ([], l)

/-- The `map` expansion of `parse`: a `map` value other than the literal
string `'auto'` is split on `/` into `zoom`/`lat`/`lon` (missing parts
parse to NaN) and removed; `'auto'` is left alone.  A non-string `map`
value (e.g. the bare-flag `null` from `map` with no `=`) has no `split`
method: `TypeError`. -/
def mapExpand (ns : Jso) : Except JsErr Jso :=
  match ns.get "map" with
  | some mv =>
    if mv != Value.str "auto" then
      match mv with
      | .str m =>
        let parts := splitChar '/' m.data
        let z := parseFloatV (match parts.get? 0 with | some q => .str (String.mk q) | none => .null)
        let la := parseFloatV (match parts.get? 1 with | some q => .str (String.mk q) | none => .null)
        let lo := parseFloatV (match parts.get? 2 with | some q => .str (String.mk q) | none => .null)
        .ok ((((ns.set "zoom" z).set "lat" la).set "lon" lo).del "map")
      | _ => .error .typeError
    else .ok ns
  | none => .ok ns

/-- `State#parse`.  A falsy link argument (absent or `''`) falls back to
the browser's `location.hash`, stripped of leading `#`.  `path` decoding
uses the throwing `decodeURIComponent`. -/
def parseOn (ps : Params) (locHash : String) (linkArg : Option String) : Except JsErr Jso :=
  let link :=
    match linkArg with
    | some l => if l.isEmpty then stripHash locHash else l
    | none => stripHash locHash
  let (newPath, qpart) := parseSplit link.data
  let ns := qsParse qpart
  match
    (if newPath.isEmpty then .ok ns
     else
       match strictDecodeL newPath with
       | some d => .ok (ns.set "path" (.str (String.mk d)))
       | none => .error JsErr.uriError : Except JsErr Jso) with
  | .error e => .error e
  | .ok ns2 =>
    match mapExpand ns2 with
    | .error e => .error e
    | .ok ns3 => .ok (ps.foldl fmtStepP ns3)

/-! ## The State store -/

/-- Observable side effects of `apply`: browser-history updates and the
`setTimeout(..., 0)` task.  `emitApply` is a synchronous invocation of the
`'apply'` listeners — it is produced only by running a scheduled
`timeoutEmit` task, never directly by `apply`. -/
inductive Eff where
  | histPush (url : String)
  | histReplace (url : String)
  | timeoutEmit (st : Jso)
  | emitApply (st : Jso)
deriving DecidableEq

def Eff.isEmitApply : Eff → Bool
  | .emitApply _ => true
  | _ => false

/-- Running a scheduled task on a later tick of the event loop. -/
def runTimer : Eff → List Eff
  | .timeoutEmit s => [.emitApply s]
  | e => [e]

structure Store where
  current : Jso := []
  previous : Jso := []
  parameters : Params := []
  getListeners : List (Jso → Jso) := []

/-- `State#get`: emit `'get'` synchronously, each listener adding keys to
the accumulator. -/
def Store.get (st : Store) : Jso :=
  st.getListeners.foldl (fun acc f => f acc) []

/-- `State#stringify`'s argument defaulting: a falsy (absent) state falls
back to `this.get()`. -/
def Store.stringify (st : Store) (state : Option Jso) : Except JsErr String :=
  stringifyOn st.parameters (state.getD (Store.get st))

/-- `State#updateLink`: push or replace the history entry with
`'#' + this.stringify()` — note: the state argument is omitted, so the
stringified object is `this.get()`. -/
def Store.updateLink (st : Store) (push : Bool) : Except JsErr Eff :=
  (st.stringify none).map
    (fun s => if push then .histPush ("#" ++ s) else .histReplace ("#" ++ s))

inductive ApplyInput where
  | nullIn
  | strIn (s : String)
  | objIn (o : Jso)

structure Opts where
  update : Option String := none

/-- `if (options.update)`. -/
def Opts.updateTruthy (o : Opts) : Bool :=
  match o.update with
  | some s => !s.isEmpty
  | none => false

/-- `if (!state || typeof state === 'string') state = this.parse(state)`. -/
def Store.applyParse (st : Store) (input : ApplyInput) (locHash : String) : Except JsErr Jso :=
  match input with
  | .nullIn => parseOn st.parameters locHash none
  | .strIn s => parseOn st.parameters locHash (some s)
  | .objIn o => .ok o

/-- `for (const k in state) this.current[k] = state[k]`. -/
def mergeInto (c : Jso) (delta : Jso) : Jso :=
  delta.foldl (fun c kv => c.set kv.1 kv.2) c

structure ApplyOut where
  res : Except JsErr Jso
  store : Store
  effs : List Eff

/-- `State#apply`.  Snapshots Previous, resolves the input (parsing null
and string inputs), merges into Current, optionally updates the history,
and schedules (never performs) the `'apply'` broadcast. -/
def Store.apply (st : Store) (input : ApplyInput) (opts : Opts) (locHash : String) : ApplyOut :=
  let st1 := { st with previous := st.current }
  match Store.applyParse st1 input locHash with
  | .error e => ⟨.error e, st1, []⟩
  | .ok delta =>
    let st2 := { st1 with current := mergeInto st1.current delta }
    if opts.updateTruthy then
      match Store.updateLink st2 (opts.update == some "push") with
      | .error e => ⟨.error e, st2, []⟩
      | .ok histEff => ⟨.ok delta, st2, [histEff, .timeoutEmit delta]⟩
    else ⟨.ok delta, st2, [.timeoutEmit delta]⟩

/-! ## Object mutation rendered on an explicit heap

`stringify` starts from `state = { ...state }` (a fresh object) and every
subsequent mutation — the `path`/`zoom`/`lat`/`lon` deletions, the
null-filtering rebind and the formatter writes — targets that working
object, never the caller's argument. -/

abbrev Heap := List Jso

def Heap.readH (h : Heap) (r : Nat) : Jso := h.getD r []

def Heap.writeH (h : Heap) (r : Nat) (o : Jso) : Heap := h.set r o

def stringifyHeap (ps : Params) (h : Heap) (r : Nat) : Heap × Except JsErr String :=
  let s0 := h.readH r
  let rw := h.length
  let h1 := h ++ [s0]                -- state = { ...state }
  let (link1, s1) := pathStage s0
  let h2 := h1.writeH rw s1          -- delete state.path
  match mapStage s1 with
  | .error e => (h2, .error e)
  | .ok (mseg, s2) =>
    let h3 := h2.writeH rw s2        -- delete state.zoom/lat/lon
    let s3 := filterNulls s2
    let rw2 := h3.length
    let h4 := h3 ++ [s3]             -- state = Object.fromEntries(...)
    let s4 := ps.foldl fmtStepS s3
    let h5 := h4.writeH rw2 s4       -- formatter writes
    (h5, .ok (String.mk (assembleLink link1 mseg s4)))

/-! ## The Bootstrap Coordinator (`App`) -/

/-- Modelled from the spec: the external `initModules` collaborator
(`./initModules`, not part of this repository's sources) invokes each
registered module's init hook in dependency order and reports the first
error, short-circuiting the chain. -/
def initModulesFirstErr (hooks : List (Except String Unit)) : Option String :=
  hooks.findSome? (fun h => match h with | .error e => some e | .ok _ => none)

/-- `Promise.all` settles with the first rejection, if any. -/
def firstRejected (l : List (Except String Unit)) : Option String :=
  l.findSome? (fun p => match p with | .error e => some e | .ok _ => none)

/-- Outcome of resolving a string `config.defaultState` through the
external Twig renderer and `yaml.load` (external collaborators whose
result is an input to the model): the render callback can report an
error, `yaml.load` can throw, or a state object comes out. -/
inductive TplResult where
  | renderErr (e : String)
  | yamlErr (e : String)
  | ok (o : Jso)

/-- `config.defaultState`: either a plain object (the
`typeof defaultState === 'string'` test fails), or a Twig template
string together with the outcome of its render/YAML chain. -/
inductive DefaultSpec where
  | obj (o : Jso)
  | tpl (r : TplResult)

structure BootOutcome where
  alerts : List String := []
  cssLoaded : Bool := false
  /-- A JS exception escaping the bootstrap (from `state.parse()`,
  which `getInitState` does not guard). -/
  thrown : Option JsErr := none
  /-- The state passed to the first `state.apply`, when reached. -/
  applied : Option Jso := none

/-- The bootstrap pipeline of `App`: `initModules` (whose callback alerts
on error but proceeds unconditionally to `loadCssFiles()` and
`getInitState()`), then `getInitState` itself: `state.parse()` (an
unguarded exception escapes), the `defaultState` branch (a Twig render
error or a `yaml.load` error alerts and returns before `this.init`), the
default/URL state merge, the `'init'` promise barrier (a rejection is
alerted by the `.catch`), and on success the first
`state.apply(initState)`. -/
def bootstrap (ps : Params) (hooks : List (Except String Unit))
    (initPromises : List (Except String Unit)) (defaultState : DefaultSpec)
    (locHash : String) : BootOutcome :=
  let a1 := match initModulesFirstErr hooks with | some e => [e] | none => []
  -- App.initModules: `if (err) alert(err.message); this.loadCssFiles(); callback()`
  match parseOn ps locHash none with
  | .error e => { alerts := a1, cssLoaded := true, thrown := some e }
  | .ok urlState =>
    match defaultState with
    | .tpl (.renderErr e) => { alerts := a1 ++ [e], cssLoaded := true }
    | .tpl (.yamlErr e) => { alerts := a1 ++ [e], cssLoaded := true }
    | .tpl (.ok ds) =>
      match firstRejected initPromises with
      | some e => { alerts := a1 ++ [e], cssLoaded := true }
      | none => { alerts := a1, cssLoaded := true, applied := some (mergeInto ds urlState) }
    | .obj ds =>
      match firstRejected initPromises with
      | some e => { alerts := a1 ++ [e], cssLoaded := true }
      | none => { alerts := a1, cssLoaded := true, applied := some (mergeInto ds urlState) }

/-! # Lemmas about JS objects -/

theorem Jso.get_set_self (o : Jso) (k : String) (v : Value) :
    (o.set k v).get k = some v := by
  induction o with
  | nil => simp [Jso.set, Jso.get]
  | cons p t ih =>
    obtain ⟨k0, v0⟩ := p
    by_cases h : k0 = k
    · simp [Jso.set, h, Jso.get]
    · simp [Jso.set, h, Jso.get, ih]

theorem Jso.get_set_ne (o : Jso) (k k' : String) (v : Value) (h : k' ≠ k) :
    (o.set k v).get k' = o.get k' := by
  induction o with
  | nil => simp [Jso.set, Jso.get, Ne.symm h]
  | cons p t ih =>
    obtain ⟨k0, v0⟩ := p
    by_cases h0 : k0 = k
    · subst h0
      simp [Jso.set, Jso.get, Ne.symm h]
    · by_cases h1 : k0 = k'
      · simp [Jso.set, h0, Jso.get, h1, h]
      · simp [Jso.set, h0, Jso.get, h1, ih]

theorem Jso.get_del_self (o : Jso) (k : String) : (o.del k).get k = none := by
  induction o with
  | nil => simp [Jso.del, Jso.get]
  | cons p t ih =>
    obtain ⟨k0, v0⟩ := p
    by_cases h : k0 = k
    · simpa [Jso.del, h] using ih
    · simpa [Jso.del, h, Jso.get] using ih

theorem Jso.get_del_ne (o : Jso) (k k' : String) (h : k' ≠ k) :
    (o.del k).get k' = o.get k' := by
  induction o with
  | nil => simp [Jso.del, Jso.get]
  | cons p t ih =>
    obtain ⟨k0, v0⟩ := p
    by_cases h0 : k0 = k
    · subst h0
      simpa [Jso.del, Jso.get, Ne.symm h] using ih
    · by_cases h1 : k0 = k'
      · simp [Jso.del, h0, Jso.get, h1, h]
      · simp [Jso.del, h0, Jso.get, h1, ih]

theorem Jso.get_eq_none_of_not_mem (o : Jso) (k : String) (h : k ∉ o.keys) :
    o.get k = none := by
  induction o with
  | nil => simp [Jso.get]
  | cons p t ih =>
    obtain ⟨k0, v0⟩ := p
    simp only [Jso.keys, List.map_cons, List.mem_cons, not_or] at h
    simp [Jso.get, Ne.symm h.1, ih h.2]

theorem mergeInto_get_none (c d : Jso) (k : String) (h : d.get k = none) :
    (mergeInto c d).get k = c.get k := by
  induction d generalizing c with
  | nil => rfl
  | cons p t ih =>
    obtain ⟨k0, v0⟩ := p
    by_cases h0 : k0 = k
    · rw [show Jso.get ((k0, v0) :: t) k = some v0 from by simp [Jso.get, h0]] at h
      exact absurd h (by simp)
    · have hh : Jso.get t k = none := by simpa [Jso.get, h0] using h
      show (mergeInto (c.set k0 v0) t).get k = c.get k
      rw [ih _ hh, Jso.get_set_ne _ _ _ _ (Ne.symm h0)]

theorem mergeInto_get_some (c d : Jso) (k : String) (v : Value)
    (hnd : d.keys.Nodup) (h : d.get k = some v) :
    (mergeInto c d).get k = some v := by
  induction d generalizing c with
  | nil => simp [Jso.get] at h
  | cons p t ih =>
    obtain ⟨k0, v0⟩ := p
    rw [show Jso.keys ((k0, v0) :: t) = k0 :: Jso.keys t from rfl, List.nodup_cons] at hnd
    by_cases h0 : k0 = k
    · subst h0
      have hv : v0 = v := by simpa [Jso.get] using h
      subst hv
      have hkeys : Jso.get t k0 = none := Jso.get_eq_none_of_not_mem _ _ hnd.1
      show (mergeInto (c.set k0 v0) t).get k0 = some v0
      rw [mergeInto_get_none _ _ _ hkeys, Jso.get_set_self]
    · have hh : Jso.get t k = some v := by simpa [Jso.get, h0] using h
      exact ih _ hnd.2 hh

/-! # Lemmas about the percent codec -/

theorem decHex_hexDigitChar : ∀ n < 16, decHexDigit (hexDigitChar n) = some n := by decide

theorem hexDigitChar_ne_percent : ∀ n < 16, hexDigitChar n ≠ '%' := by decide

theorem hexDigitChar_ne_amp : ∀ n < 16, hexDigitChar n ≠ '&' := by decide

theorem hexDigitChar_ne_eqs : ∀ n < 16, hexDigitChar n ≠ '=' := by decide

theorem hexDigitChar_bne_u : ∀ n < 16, ((hexDigitChar n).toNat == 117) = false := by decide

theorem charEq_of_toNat (a b : Char) (h : a.toNat = b.toNat) : a = b := by
  have h2 := Char.ofNat_toNat a
  rw [h, Char.ofNat_toNat] at h2
  exact h2.symm

theorem encWith_cons (keep : Char → Bool) (c : Char) (l : List Char) :
    encWith keep (c :: l) = encCharWith keep c ++ encWith keep l := rfl

theorem encCharWith_of_keep (keep : Char → Bool) (c : Char) (h : keep c = true) :
    encCharWith keep c = [c] := by
  simp [encCharWith, h]

theorem encCharWith_byte (keep : Char → Bool) (c : Char) (h : keep c = false)
    (h2 : c.toNat < 256) : encCharWith keep c = '%' :: hexByte c.toNat := by
  simp [encCharWith, h, h2]

theorem encCharWith_u (keep : Char → Bool) (c : Char) (h : keep c = false)
    (h2 : ¬ c.toNat < 256) : encCharWith keep c = '%' :: 'u' :: hex6 c.toNat := by
  simp [encCharWith, h, h2]

theorem uriUnreserved_ne37 (c : Char) (h : uriUnreserved c = true) : (c.toNat == 37) = false := by
  cases hb : (c.toNat == 37) with
  | false => rfl
  | true =>
    have hn : c.toNat = 37 := by simpa using hb
    simp only [uriUnreserved, isAlphaNum, hn] at h
    exact absurd h (by decide)

theorem strictUnreserved_ne37 (c : Char) (h : strictUnreserved c = true) :
    (c.toNat == 37) = false := by
  cases hb : (c.toNat == 37) with
  | false => rfl
  | true =>
    have hn : c.toNat = 37 := by simpa using hb
    simp only [strictUnreserved, isAlphaNum, hn] at h
    exact absurd h (by decide)

theorem relaxedUnreserved_ne37 (c : Char) (h : relaxedUnreserved c = true) :
    (c.toNat == 37) = false := by
  cases hb : (c.toNat == 37) with
  | false => rfl
  | true =>
    have hn : c.toNat = 37 := by simpa using hb
    simp only [relaxedUnreserved, strictUnreserved, isAlphaNum, hn] at h
    exact absurd h (by decide)

theorem gracefulAux_nil (f : Nat) : gracefulDecodeAux f [] = [] := by
  cases f <;> rfl

theorem gracefulAux_encWith (keep : Char → Bool)
    (h37 : ∀ c, keep c = true → (c.toNat == 37) = false) :
    ∀ (l : List Char) (f : Nat), (encWith keep l).length ≤ f →
      gracefulDecodeAux f (encWith keep l) = l := by
  intro l
  induction l with
  | nil => intro f _; exact gracefulAux_nil f
  | cons c t ih =>
    intro f hf
    rw [encWith_cons] at hf ⊢
    by_cases hk : keep c = true
    · rw [encCharWith_of_keep keep c hk] at hf ⊢
      cases f with
      | zero => simp at hf
      | succ f' =>
        have hf' : (encWith keep t).length ≤ f' := by simp at hf; omega
        show gracefulDecodeAux (f' + 1) (c :: encWith keep t) = c :: t
        simp only [gracefulDecodeAux, h37 c hk, Bool.false_eq_true, if_false]
        rw [ih f' hf']
    · replace hk : keep c = false := by simpa using hk
      by_cases h256 : c.toNat < 256
      · rw [encCharWith_byte keep c hk h256] at hf ⊢
        cases f with
        | zero => simp at hf
        | succ f' =>
          have hf' : (encWith keep t).length ≤ f' := by simp [hexByte] at hf; omega
          have hhi : c.toNat / 16 % 16 < 16 := Nat.mod_lt _ (by norm_num)
          have hlo : c.toNat % 16 < 16 := Nat.mod_lt _ (by norm_num)
          simp only [hexByte, List.cons_append, List.nil_append]
          simp only [gracefulDecodeAux]
          simp only [show ('%'.toNat == 37) = true from rfl, eq_self_iff_true, if_true,
            hexDigitChar_bne_u _ hhi, Bool.false_eq_true, if_false,
            decHex_hexDigitChar _ hhi, decHex_hexDigitChar _ hlo]
          rw [ih f' hf']
          congr 1
          have : 16 * (c.toNat / 16 % 16) + c.toNat % 16 = c.toNat := by omega
          rw [this, Char.ofNat_toNat]
      · rw [encCharWith_u keep c hk h256] at hf ⊢
        cases f with
        | zero => simp at hf
        | succ f' =>
          have hf' : (encWith keep t).length ≤ f' := by simp [hex6] at hf; omega
          have hd5 : c.toNat / 16 ^ 5 % 16 < 16 := Nat.mod_lt _ (by norm_num)
          have hd4 : c.toNat / 16 ^ 4 % 16 < 16 := Nat.mod_lt _ (by norm_num)
          have hd3 : c.toNat / 16 ^ 3 % 16 < 16 := Nat.mod_lt _ (by norm_num)
          have hd2 : c.toNat / 16 ^ 2 % 16 < 16 := Nat.mod_lt _ (by norm_num)
          have hd1 : c.toNat / 16 % 16 < 16 := Nat.mod_lt _ (by norm_num)
          have hd0 : c.toNat % 16 < 16 := Nat.mod_lt _ (by norm_num)
          simp only [hex6, List.cons_append, List.nil_append]
          simp only [gracefulDecodeAux]
          simp only [show ('%'.toNat == 37) = true from rfl,
            show ('u'.toNat == 117) = true from rfl, eq_self_iff_true, if_true,
            decHex_hexDigitChar _ hd5, decHex_hexDigitChar _ hd4, decHex_hexDigitChar _ hd3,
            decHex_hexDigitChar _ hd2, decHex_hexDigitChar _ hd1, decHex_hexDigitChar _ hd0]
          rw [ih f' hf']
          congr 1
          have hv : c.toNat < 16 ^ 6 := by
            have h := c.valid
            unfold UInt32.isValidChar Nat.isValidChar at h
            have he : c.toNat = c.val.toNat := rfl
            rcases h with h | ⟨h1, h2⟩ <;> omega
          have : ((((c.toNat / 16 ^ 5 % 16 * 16 + c.toNat / 16 ^ 4 % 16) * 16 +
              c.toNat / 16 ^ 3 % 16) * 16 + c.toNat / 16 ^ 2 % 16) * 16 +
              c.toNat / 16 % 16) * 16 + c.toNat % 16 = c.toNat := by omega
          rw [this, Char.ofNat_toNat]

theorem gracefulDecode_encWith (keep : Char → Bool)
    (h37 : ∀ c, keep c = true → (c.toNat == 37) = false) (l : List Char) :
    gracefulDecodeL (encWith keep l) = l :=
  gracefulAux_encWith keep h37 l _ le_rfl

theorem strictAux_nil (f : Nat) : strictDecodeAux f [] = some [] := by
  cases f <;> rfl

theorem strictAux_encWith (keep : Char → Bool)
    (h37 : ∀ c, keep c = true → (c.toNat == 37) = false) :
    ∀ (l : List Char) (f : Nat), (encWith keep l).length ≤ f →
      strictDecodeAux f (encWith keep l) = some l := by
  intro l
  induction l with
  | nil => intro f _; exact strictAux_nil f
  | cons c t ih =>
    intro f hf
    rw [encWith_cons] at hf ⊢
    by_cases hk : keep c = true
    · rw [encCharWith_of_keep keep c hk] at hf ⊢
      cases f with
      | zero => simp at hf
      | succ f' =>
        have hf' : (encWith keep t).length ≤ f' := by simp at hf; omega
        show strictDecodeAux (f' + 1) (c :: encWith keep t) = some (c :: t)
        simp only [strictDecodeAux, h37 c hk, Bool.false_eq_true, if_false]
        rw [ih f' hf']
        rfl
    · replace hk : keep c = false := by simpa using hk
      by_cases h256 : c.toNat < 256
      · rw [encCharWith_byte keep c hk h256] at hf ⊢
        cases f with
        | zero => simp at hf
        | succ f' =>
          have hf' : (encWith keep t).length ≤ f' := by simp [hexByte] at hf; omega
          have hhi : c.toNat / 16 % 16 < 16 := Nat.mod_lt _ (by norm_num)
          have hlo : c.toNat % 16 < 16 := Nat.mod_lt _ (by norm_num)
          simp only [hexByte, List.cons_append, List.nil_append]
          simp only [strictDecodeAux]
          simp only [show ('%'.toNat == 37) = true from rfl, eq_self_iff_true, if_true,
            hexDigitChar_bne_u _ hhi, Bool.false_eq_true, if_false,
            decHex_hexDigitChar _ hhi, decHex_hexDigitChar _ hlo]
          rw [ih f' hf']
          have : 16 * (c.toNat / 16 % 16) + c.toNat % 16 = c.toNat := by omega
          rw [Option.map, this, Char.ofNat_toNat]
      · rw [encCharWith_u keep c hk h256] at hf ⊢
        cases f with
        | zero => simp at hf
        | succ f' =>
          have hf' : (encWith keep t).length ≤ f' := by simp [hex6] at hf; omega
          have hd5 : c.toNat / 16 ^ 5 % 16 < 16 := Nat.mod_lt _ (by norm_num)
          have hd4 : c.toNat / 16 ^ 4 % 16 < 16 := Nat.mod_lt _ (by norm_num)
          have hd3 : c.toNat / 16 ^ 3 % 16 < 16 := Nat.mod_lt _ (by norm_num)
          have hd2 : c.toNat / 16 ^ 2 % 16 < 16 := Nat.mod_lt _ (by norm_num)
          have hd1 : c.toNat / 16 % 16 < 16 := Nat.mod_lt _ (by norm_num)
          have hd0 : c.toNat % 16 < 16 := Nat.mod_lt _ (by norm_num)
          simp only [hex6, List.cons_append, List.nil_append]
          simp only [strictDecodeAux]
          simp only [show ('%'.toNat == 37) = true from rfl,
            show ('u'.toNat == 117) = true from rfl, eq_self_iff_true, if_true,
            decHex_hexDigitChar _ hd5, decHex_hexDigitChar _ hd4, decHex_hexDigitChar _ hd3,
            decHex_hexDigitChar _ hd2, decHex_hexDigitChar _ hd1, decHex_hexDigitChar _ hd0]
          rw [ih f' hf']
          have hv : c.toNat < 16 ^ 6 := by
            have h := c.valid
            unfold UInt32.isValidChar Nat.isValidChar at h
            have he : c.toNat = c.val.toNat := rfl
            rcases h with h | ⟨h1, h2⟩ <;> omega
          have : ((((c.toNat / 16 ^ 5 % 16 * 16 + c.toNat / 16 ^ 4 % 16) * 16 +
              c.toNat / 16 ^ 3 % 16) * 16 + c.toNat / 16 ^ 2 % 16) * 16 +
              c.toNat / 16 % 16) * 16 + c.toNat % 16 = c.toNat := by omega
          rw [Option.map, this, Char.ofNat_toNat]

theorem strictDecode_encWith (keep : Char → Bool)
    (h37 : ∀ c, keep c = true → (c.toNat == 37) = false) (l : List Char) :
    strictDecodeL (encWith keep l) = some l :=
  strictAux_encWith keep h37 l _ le_rfl

theorem not_mem_encWith (keep : Char → Bool) (x : Char) (hk : keep x = false)
    (hhex : decHexDigit x = none) (hp : x ≠ '%') (hu : x ≠ 'u') (l : List Char) :
    x ∉ encWith keep l := by
  induction l with
  | nil => simp [encWith]
  | cons c t ih =>
    rw [encWith_cons]
    intro hmem
    rcases List.mem_append.mp hmem with hm | hm
    · by_cases hkc : keep c = true
      · rw [encCharWith_of_keep _ _ hkc] at hm
        simp only [List.mem_singleton] at hm
        subst hm
        rw [hkc] at hk
        cases hk
      · replace hkc : keep c = false := by simpa using hkc
        by_cases h256 : c.toNat < 256
        · rw [encCharWith_byte _ _ hkc h256] at hm
          have hhi : c.toNat / 16 % 16 < 16 := Nat.mod_lt _ (by norm_num)
          have hlo : c.toNat % 16 < 16 := Nat.mod_lt _ (by norm_num)
          simp only [hexByte, List.mem_cons, List.mem_singleton, List.not_mem_nil,
            or_false] at hm
          rcases hm with hm | hm | hm
          · exact hp hm
          · rw [hm, decHex_hexDigitChar _ hhi] at hhex
            cases hhex
          · rw [hm, decHex_hexDigitChar _ hlo] at hhex
            cases hhex
        · rw [encCharWith_u _ _ hkc h256] at hm
          have hd5 : c.toNat / 16 ^ 5 % 16 < 16 := Nat.mod_lt _ (by norm_num)
          have hd4 : c.toNat / 16 ^ 4 % 16 < 16 := Nat.mod_lt _ (by norm_num)
          have hd3 : c.toNat / 16 ^ 3 % 16 < 16 := Nat.mod_lt _ (by norm_num)
          have hd2 : c.toNat / 16 ^ 2 % 16 < 16 := Nat.mod_lt _ (by norm_num)
          have hd1 : c.toNat / 16 % 16 < 16 := Nat.mod_lt _ (by norm_num)
          have hd0 : c.toNat % 16 < 16 := Nat.mod_lt _ (by norm_num)
          simp only [hex6, List.mem_cons, List.mem_singleton, List.not_mem_nil,
            or_false] at hm
          rcases hm with hm | hm | hm | hm | hm | hm | hm | hm
          · exact hp hm
          · exact hu hm
          · rw [hm, decHex_hexDigitChar _ hd5] at hhex; cases hhex
          · rw [hm, decHex_hexDigitChar _ hd4] at hhex; cases hhex
          · rw [hm, decHex_hexDigitChar _ hd3] at hhex; cases hhex
          · rw [hm, decHex_hexDigitChar _ hd2] at hhex; cases hhex
          · rw [hm, decHex_hexDigitChar _ hd1] at hhex; cases hhex
          · rw [hm, decHex_hexDigitChar _ hd0] at hhex; cases hhex
    · exact ih hm

theorem hexDigitChar_beq_two : ∀ n < 16, (hexDigitChar n == '2') = decide (n = 2) := by decide

theorem hexDigitChar_beq_F : ∀ n < 16, (hexDigitChar n == 'F') = decide (n = 15) := by decide

theorem hexDigitChar_beq_C : ∀ n < 16, (hexDigitChar n == 'C') = decide (n = 12) := by decide

theorem hexDigitChar_beq_three : ∀ n < 16, (hexDigitChar n == '3') = decide (n = 3) := by decide

theorem hexDigitChar_beq_A : ∀ n < 16, (hexDigitChar n == 'A') = decide (n = 10) := by decide

theorem relaxed_of_strict (c : Char) (h : strictUnreserved c = true) :
    relaxedUnreserved c = true := by
  simp [relaxedUnreserved, h]

theorem ne_percent_of_strict (c : Char) (h : strictUnreserved c = true) : c ≠ '%' := by
  intro he
  subst he
  exact absurd h (by decide)

theorem replace3_cons_nonpercent (c : Char) (r : List Char) (hc : c ≠ '%') :
    replace3 (c :: r) = c :: replace3 r := by
  have hcb : (c == '%') = false := by simp [hc]
  cases r with
  | nil => rfl
  | cons d r' =>
    cases r' with
    | nil => rfl
    | cons e r'' => simp [replace3, hcb]

theorem replace3_append_nonpercent (pre r : List Char) (hpre : ∀ c ∈ pre, c ≠ '%') :
    replace3 (pre ++ r) = pre ++ replace3 r := by
  induction pre with
  | nil => rfl
  | cons c p ih =>
    rw [List.cons_append, replace3_cons_nonpercent c _ (hpre c (List.mem_cons_self c p)),
      ih (fun x hx => hpre x (List.mem_cons_of_mem c hx)), List.cons_append]

theorem replace3_encStrict_append (l r : List Char) :
    replace3 (encWith strictUnreserved l ++ r) =
      encWith relaxedUnreserved l ++ replace3 r := by
  induction l with
  | nil => rfl
  | cons c t ih =>
    rw [encWith_cons, encWith_cons, List.append_assoc, List.append_assoc]
    by_cases hs : strictUnreserved c = true
    · rw [encCharWith_of_keep _ _ hs, encCharWith_of_keep _ _ (relaxed_of_strict c hs)]
      rw [List.singleton_append, List.singleton_append,
        replace3_cons_nonpercent c _ (ne_percent_of_strict c hs), ih]
    · replace hs : strictUnreserved c = false := by simpa using hs
      have hhi : c.toNat / 16 % 16 < 16 := Nat.mod_lt _ (by norm_num)
      have hlo : c.toNat % 16 < 16 := Nat.mod_lt _ (by norm_num)
      by_cases h256 : c.toNat < 256
      · rw [encCharWith_byte _ _ hs h256]
        by_cases h47 : c.toNat = 47
        · have hr : relaxedUnreserved c = true := by
            simp [relaxedUnreserved, hs, h47]
          rw [encCharWith_of_keep _ _ hr]
          have hb : hexByte c.toNat = ['2', 'F'] := by rw [h47]; rfl
          rw [hb]
          show replace3 ('%' :: '2' :: 'F' :: (encWith strictUnreserved t ++ r)) = _
          rw [show ∀ x, replace3 ('%' :: '2' :: 'F' :: x) = '/' :: replace3 x from
            fun x => by simp [replace3]]
          rw [ih, List.singleton_append]
          have : c = '/' := (charEq_of_toNat '/' c (by rw [h47]; rfl)).symm
          rw [this]
        · by_cases h44 : c.toNat = 44
          · have hr : relaxedUnreserved c = true := by
              simp [relaxedUnreserved, hs, h44]
            rw [encCharWith_of_keep _ _ hr]
            have hb : hexByte c.toNat = ['2', 'C'] := by rw [h44]; rfl
            rw [hb]
            show replace3 ('%' :: '2' :: 'C' :: (encWith strictUnreserved t ++ r)) = _
            rw [show ∀ x, replace3 ('%' :: '2' :: 'C' :: x) = ',' :: replace3 x from
              fun x => by simp [replace3]]
            rw [ih, List.singleton_append]
            have : c = ',' := (charEq_of_toNat ',' c (by rw [h44]; rfl)).symm
            rw [this]
          · by_cases h58 : c.toNat = 58
            · have hr : relaxedUnreserved c = true := by
                simp [relaxedUnreserved, hs, h58]
              rw [encCharWith_of_keep _ _ hr]
              have hb : hexByte c.toNat = ['3', 'A'] := by rw [h58]; rfl
              rw [hb]
              show replace3 ('%' :: '3' :: 'A' :: (encWith strictUnreserved t ++ r)) = _
              rw [show ∀ x, replace3 ('%' :: '3' :: 'A' :: x) = ':' :: replace3 x from
                fun x => by simp [replace3]]
              rw [ih, List.singleton_append]
              have : c = ':' := (charEq_of_toNat ':' c (by rw [h58]; rfl)).symm
              rw [this]
            · have hr : relaxedUnreserved c = false := by
                simp [relaxedUnreserved, hs, h47, h44, h58]
              rw [encCharWith_byte _ _ hr h256]
              show replace3 ('%' :: hexDigitChar (c.toNat / 16 % 16) ::
                hexDigitChar (c.toNat % 16) :: (encWith strictUnreserved t ++ r)) = _
              have hc1 : (hexDigitChar (c.toNat / 16 % 16) == '2' &&
                  hexDigitChar (c.toNat % 16) == 'F') = false := by
                rw [hexDigitChar_beq_two _ hhi, hexDigitChar_beq_F _ hlo]
                by_cases hx : c.toNat / 16 % 16 = 2
                · have hy : ¬ (c.toNat % 16 = 15) := by omega
                  simp [hx, hy]
                · simp [hx]
              have hc2 : (hexDigitChar (c.toNat / 16 % 16) == '2' &&
                  hexDigitChar (c.toNat % 16) == 'C') = false := by
                rw [hexDigitChar_beq_two _ hhi, hexDigitChar_beq_C _ hlo]
                by_cases hx : c.toNat / 16 % 16 = 2
                · have hy : ¬ (c.toNat % 16 = 12) := by omega
                  simp [hx, hy]
                · simp [hx]
              have hc3 : (hexDigitChar (c.toNat / 16 % 16) == '3' &&
                  hexDigitChar (c.toNat % 16) == 'A') = false := by
                rw [hexDigitChar_beq_three _ hhi, hexDigitChar_beq_A _ hlo]
                by_cases hx : c.toNat / 16 % 16 = 3
                · have hy : ¬ (c.toNat % 16 = 10) := by omega
                  simp [hx, hy]
                · simp [hx]
              rw [show ∀ x, replace3 ('%' :: hexDigitChar (c.toNat / 16 % 16) ::
                  hexDigitChar (c.toNat % 16) :: x) =
                  '%' :: replace3 (hexDigitChar (c.toNat / 16 % 16) ::
                    hexDigitChar (c.toNat % 16) :: x) from fun x => by
                simp only [replace3, show ('%' == '%') = true from rfl, Bool.true_and, hc1,
                  hc2, hc3, Bool.false_eq_true, if_false]]
              rw [replace3_cons_nonpercent _ _ (hexDigitChar_ne_percent _ hhi),
                replace3_cons_nonpercent _ _ (hexDigitChar_ne_percent _ hlo), ih]
              rfl
      · rw [encCharWith_u _ _ hs h256]
        have hr : relaxedUnreserved c = false := by
          have h1 : c.toNat ≠ 47 := by omega
          have h2 : c.toNat ≠ 44 := by omega
          have h3 : c.toNat ≠ 58 := by omega
          simp [relaxedUnreserved, hs, h1, h2, h3]
        rw [encCharWith_u _ _ hr h256]
        have hd5 : c.toNat / 16 ^ 5 % 16 < 16 := Nat.mod_lt _ (by norm_num)
        have hd4 : c.toNat / 16 ^ 4 % 16 < 16 := Nat.mod_lt _ (by norm_num)
        have hd3 : c.toNat / 16 ^ 3 % 16 < 16 := Nat.mod_lt _ (by norm_num)
        have hd2 : c.toNat / 16 ^ 2 % 16 < 16 := Nat.mod_lt _ (by norm_num)
        have hd1 : c.toNat / 16 % 16 < 16 := Nat.mod_lt _ (by norm_num)
        have hd0 : c.toNat % 16 < 16 := Nat.mod_lt _ (by norm_num)
        simp only [hex6, List.cons_append, List.nil_append]
        rw [show ∀ (e : Char) (x : List Char), replace3 ('%' :: 'u' :: e :: x) =
            '%' :: replace3 ('u' :: e :: x) from fun e x => by
          simp [replace3, show ('u' == '2') = false from rfl,
            show ('u' == '3') = false from rfl]]
        rw [replace3_cons_nonpercent 'u' _ (by decide),
          replace3_cons_nonpercent _ _ (hexDigitChar_ne_percent _ hd5),
          replace3_cons_nonpercent _ _ (hexDigitChar_ne_percent _ hd4),
          replace3_cons_nonpercent _ _ (hexDigitChar_ne_percent _ hd3),
          replace3_cons_nonpercent _ _ (hexDigitChar_ne_percent _ hd2),
          replace3_cons_nonpercent _ _ (hexDigitChar_ne_percent _ hd1),
          replace3_cons_nonpercent _ _ (hexDigitChar_ne_percent _ hd0), ih]

/-! # Splitting, joining, sorting -/

theorem splitChar_cons_self (c : Char) (l : List Char) :
    splitChar c (c :: l) = [] :: splitChar c l := by
  conv_lhs => unfold splitChar
  simp

theorem splitChar_cons_ne (c x : Char) (l : List Char) (hb : (x == c) = false) :
    splitChar c (x :: l) =
      match splitChar c l with
      | h :: t => (x :: h) :: t
      | [] => [[x]] := by
  conv_lhs => unfold splitChar
  rw [hb]
  simp

theorem splitChar_of_not_mem (c : Char) (l : List Char) (h : c ∉ l) :
    splitChar c l = [l] := by
  induction l with
  | nil => rfl
  | cons x r ih =>
    simp only [List.mem_cons, not_or] at h
    have hb : (x == c) = false := by simp [Ne.symm h.1]
    rw [splitChar_cons_ne c x r hb, ih h.2]

theorem splitChar_append (c : Char) (l1 l2 : List Char) (h : c ∉ l1) :
    splitChar c (l1 ++ c :: l2) = l1 :: splitChar c l2 := by
  induction l1 with
  | nil => exact splitChar_cons_self c l2
  | cons x r ih =>
    simp only [List.mem_cons, not_or] at h
    have hb : (x == c) = false := by simp [Ne.symm h.1]
    show splitChar c (x :: (r ++ c :: l2)) = (x :: r) :: splitChar c l2
    rw [splitChar_cons_ne c x _ hb, ih h.2]

theorem joinChar_cons (c : Char) (p : List Char) (ps : List (List Char)) (h : ps ≠ []) :
    joinChar c (p :: ps) = p ++ c :: joinChar c ps := by
  cases ps with
  | nil => exact absurd rfl h
  | cons q t => rfl

theorem splitChar_join (c : Char) (parts : List (List Char)) (hne : parts ≠ [])
    (h : ∀ p ∈ parts, c ∉ p) :
    splitChar c (joinChar c parts) = parts := by
  induction parts with
  | nil => exact absurd rfl hne
  | cons p ps ih =>
    cases ps with
    | nil => exact splitChar_of_not_mem c p (h p (List.mem_cons_self p []))
    | cons q t =>
      rw [joinChar_cons c p _ (by simp),
        splitChar_append c _ _ (h p (List.mem_cons_self p _)),
        ih (by simp) (fun x hx => h x (List.mem_cons_of_mem p hx))]

theorem firstIdx_append_cons (c : Char) (l1 l2 : List Char) (h : c ∉ l1) :
    firstIdx c (l1 ++ c :: l2) = some l1.length := by
  induction l1 with
  | nil => simp [firstIdx]
  | cons x r ih =>
    simp only [List.mem_cons, not_or] at h
    have hb : (x == c) = false := by simp [Ne.symm h.1]
    show firstIdx c (x :: (r ++ c :: l2)) = some (r.length + 1)
    unfold firstIdx
    rw [hb]
    simp only [Bool.false_eq_true, if_false, ih h.2, Option.map]

theorem firstIdx_of_not_mem (c : Char) (l : List Char) (h : c ∉ l) :
    firstIdx c l = none := by
  induction l with
  | nil => rfl
  | cons x r ih =>
    simp only [List.mem_cons, not_or] at h
    have hb : (x == c) = false := by simp [Ne.symm h.1]
    unfold firstIdx
    rw [hb]
    simp only [Bool.false_eq_true, if_false, ih h.2, Option.map]

theorem drop_after_sep (c : Char) (l1 l2 : List Char) :
    (l1 ++ c :: l2).drop (l1.length + 1) = l2 := by
  have h1 : l1 ++ c :: l2 = (l1 ++ [c]) ++ l2 := by simp
  have h2 : l1.length + 1 = (l1 ++ [c]).length := by simp
  rw [h1, h2, List.drop_left]

theorem insertByKey_perm (p : String × Value) (l : Jso) :
    (insertByKey p l).Perm (p :: l) := by
  induction l with
  | nil => exact List.Perm.refl _
  | cons q t ih =>
    unfold insertByKey
    by_cases hlt : strLtL q.1.data p.1.data = true
    · rw [if_pos hlt]
      exact (ih.cons q).trans (List.Perm.swap p q t)
    · rw [if_neg hlt]

theorem sortByKeys_perm (o : Jso) : (sortByKeys o).Perm o := by
  induction o with
  | nil => exact List.Perm.refl _
  | cons p t ih =>
    show (insertByKey p (sortByKeys t)).Perm (p :: t)
    exact (insertByKey_perm p _).trans (ih.cons p)

theorem get_eq_of_perm (a b : Jso) (hp : a.Perm b) (hnd : a.keys.Nodup) (k : String) :
    a.get k = b.get k := by
  induction hp with
  | nil => rfl
  | cons x hp ih =>
    rename_i l1 l2
    rw [show Jso.keys (x :: l1) = x.1 :: Jso.keys l1 from rfl, List.nodup_cons] at hnd
    by_cases hx : x.1 = k
    · simp [Jso.get, hx]
    · simp [Jso.get, hx, ih hnd.2]
  | swap x y l =>
    rw [show Jso.keys (y :: x :: l) = y.1 :: x.1 :: Jso.keys l from rfl,
      List.nodup_cons, List.nodup_cons] at hnd
    have hxy : y.1 ≠ x.1 := fun he => hnd.1 (he ▸ List.mem_cons_self _ _)
    by_cases h1 : y.1 = k
    · have h2 : x.1 ≠ k := fun he => hxy (h1.trans he.symm)
      simp [Jso.get, h1, h2]
    · by_cases h2 : x.1 = k
      · simp [Jso.get, h1, h2]
      · simp [Jso.get, h1, h2]
  | trans p1 p2 ih1 ih2 =>
    rename_i la lb lc
    have hb : (Jso.keys lb).Nodup := (List.Perm.map Prod.fst p1).nodup hnd
    exact (ih1 hnd).trans (ih2 hb)

theorem get_sortByKeys (o : Jso) (hnd : o.keys.Nodup) (k : String) :
    (sortByKeys o).get k = o.get k :=
  (get_eq_of_perm o (sortByKeys o) (sortByKeys_perm o).symm hnd k).symm

theorem Jso.set_eq_append (o : Jso) (k : String) (v : Value) (h : o.get k = none) :
    o.set k v = o ++ [(k, v)] := by
  induction o with
  | nil => rfl
  | cons p t ih =>
    obtain ⟨k0, v0⟩ := p
    by_cases h0 : k0 = k
    · simp [Jso.get, h0] at h
    · have ht : Jso.get t k = none := by simpa [Jso.get, h0] using h
      simp [Jso.set, h0, ih ht]

/-! # The query-string round trip -/

theorem qsPair_str (k : String) (s : String) :
    qsPair k (.str s) = qsEncodeL k.data ++ '=' :: qsEncodeL s.data := rfl

theorem eqs_not_mem_encRelaxed (l : List Char) : '=' ∉ encWith relaxedUnreserved l :=
  not_mem_encWith relaxedUnreserved '=' (by decide) (by decide) (by decide) (by decide) l

theorem amp_not_mem_encRelaxed (l : List Char) : '&' ∉ encWith relaxedUnreserved l :=
  not_mem_encWith relaxedUnreserved '&' (by decide) (by decide) (by decide) (by decide) l

theorem eqs_not_mem_encUri (l : List Char) : '=' ∉ encWith uriUnreserved l :=
  not_mem_encWith uriUnreserved '=' (by decide) (by decide) (by decide) (by decide) l

theorem amp_not_mem_encUri (l : List Char) : '&' ∉ encWith uriUnreserved l :=
  not_mem_encWith uriUnreserved '&' (by decide) (by decide) (by decide) (by decide) l

theorem amp_not_mem_relPair (kv : String × Value) : '&' ∉ relPair kv := by
  unfold relPair
  intro hm
  rcases List.mem_append.mp hm with hm | hm
  · exact amp_not_mem_encRelaxed _ hm
  · rcases List.mem_cons.mp hm with hm | hm
    · cases hm
    · exact amp_not_mem_encRelaxed _ hm

theorem relPair_ne_nil (kv : String × Value) : relPair kv ≠ [] := by
  unfold relPair
  cases h : encWith relaxedUnreserved kv.1.data <;> simp

theorem replace3_qsJoin (l : List (String × Value))
    (hv : ∀ kv ∈ l, ∃ s, kv.2 = Value.str s) :
    replace3 (joinChar '&' (l.map (fun p => qsPair p.1 p.2))) =
      joinChar '&' (l.map relPair) := by
  induction l with
  | nil => rfl
  | cons p t ih =>
    obtain ⟨s, hs⟩ := hv p (List.mem_cons_self p t)
    cases t with
    | nil =>
      show replace3 (qsPair p.1 p.2) = relPair p
      have h1 : qsPair p.1 p.2 =
          encWith strictUnreserved p.1.data ++
            ('=' :: (encWith strictUnreserved s.data ++ [])) := by
        rw [hs, qsPair_str]
        simp [qsEncodeL]
      rw [h1, replace3_encStrict_append,
        replace3_cons_nonpercent '=' _ (by decide), replace3_encStrict_append]
      simp [relPair, valueToStr, hs, replace3]
    | cons q t2 =>
      rw [show List.map (fun p => qsPair p.1 p.2) (p :: q :: t2) =
          qsPair p.1 p.2 :: List.map (fun p => qsPair p.1 p.2) (q :: t2) from rfl,
        show List.map relPair (p :: q :: t2) = relPair p :: List.map relPair (q :: t2) from rfl,
        joinChar_cons '&' _ _ (show (List.map (fun p => qsPair p.1 p.2) (q :: t2)) ≠ [] by simp),
        joinChar_cons '&' _ _ (show (List.map relPair (q :: t2)) ≠ [] by simp)]
      have h1 : (qsPair p.1 p.2) ++
          '&' :: joinChar '&' (List.map (fun p => qsPair p.1 p.2) (q :: t2)) =
          encWith strictUnreserved p.1.data ++ ('=' :: (encWith strictUnreserved s.data ++
            ('&' :: joinChar '&' (List.map (fun p => qsPair p.1 p.2) (q :: t2))))) := by
        rw [hs, qsPair_str]
        simp [qsEncodeL]
      rw [h1, replace3_encStrict_append, replace3_cons_nonpercent '=' _ (by decide),
        replace3_encStrict_append, replace3_cons_nonpercent '&' _ (by decide),
        ih (fun kv hkv => hv kv (List.mem_cons_of_mem p hkv))]
      simp [relPair, valueToStr, hs]

theorem qsParseOne_relPair (o : Jso) (kv : String × Value) (s : String)
    (hs : kv.2 = Value.str s) (h : o.get kv.1 = none) :
    qsParseOne o (relPair kv) = o ++ [kv] := by
  unfold qsParseOne relPair
  rw [firstIdx_append_cons _ _ _ (eqs_not_mem_encRelaxed _)]
  dsimp only
  rw [List.take_left, drop_after_sep]
  rw [gracefulDecode_encWith relaxedUnreserved relaxedUnreserved_ne37,
    gracefulDecode_encWith relaxedUnreserved relaxedUnreserved_ne37]
  rw [hs]
  show o.set kv.1 (Value.str s) = o ++ [kv]
  rw [Jso.set_eq_append o kv.1 _ h]
  obtain ⟨k, v⟩ := kv
  simp at hs
  rw [hs]

theorem Jso.get_append (a b : Jso) (k : String) :
    (a ++ b).get k =
      match a.get k with
      | some v => some v
      | none => b.get k := by
  induction a with
  | nil => rfl
  | cons p t ih =>
    obtain ⟨k0, v0⟩ := p
    by_cases h : k0 = k
    · simp [Jso.get, h]
    · simp [Jso.get, h, ih]

theorem qsParse_fold_acc (pairs : List (String × Value)) :
    ∀ o : Jso, (∀ kv ∈ pairs, ∃ s, kv.2 = Value.str s) →
      (∀ kv ∈ pairs, o.get kv.1 = none) → (Jso.keys pairs).Nodup →
      (pairs.map relPair).foldl qsParseOne o = o ++ pairs := by
  induction pairs with
  | nil => intro o _ _ _; simp
  | cons p t ih =>
    intro o hv hfresh hnd
    rw [show Jso.keys (p :: t) = p.1 :: Jso.keys t from rfl, List.nodup_cons] at hnd
    obtain ⟨s, hs⟩ := hv p (List.mem_cons_self p t)
    show (t.map relPair).foldl qsParseOne (qsParseOne o (relPair p)) = o ++ p :: t
    rw [qsParseOne_relPair o p s hs (hfresh p (List.mem_cons_self p t))]
    rw [ih (o ++ [p]) (fun kv hkv => hv kv (List.mem_cons_of_mem p hkv))
      (fun kv hkv => ?_) hnd.2]
    · simp
    · rw [Jso.get_append]
      rw [hfresh kv (List.mem_cons_of_mem p hkv)]
      have hne : p.1 ≠ kv.1 := fun he => hnd.1 (he ▸ List.mem_map_of_mem Prod.fst hkv)
      simp [Jso.get, hne]

theorem qs_roundtrip (o : Jso) (hnd : (Jso.keys o).Nodup)
    (hv : ∀ kv ∈ o, ∃ s, kv.2 = Value.str s) :
    qsParse (replace3 (qsStringify o)) = sortByKeys o := by
  have hperm := sortByKeys_perm o
  have hvs : ∀ kv ∈ sortByKeys o, ∃ s, kv.2 = Value.str s :=
    fun kv hkv => hv kv (hperm.mem_iff.mp hkv)
  have hnds : (Jso.keys (sortByKeys o)).Nodup := (List.Perm.map Prod.fst hperm.symm).nodup hnd
  unfold qsStringify qsParse
  rw [replace3_qsJoin _ hvs]
  cases hso : sortByKeys o with
  | nil => rfl
  | cons p t =>
    rw [hso] at hvs hnds
    rw [splitChar_join '&' _ (by simp) (fun x hx => ?_)]
    rw [show ((p :: t).map relPair).filter (fun q => !q.isEmpty) = (p :: t).map relPair from
      List.filter_eq_self.mpr (fun x hx => ?_)]
    · rw [qsParse_fold_acc (p :: t) [] hvs (fun kv _ => rfl) hnds]
      simp
    · rcases List.mem_map.mp hx with ⟨kv, _, hkv⟩
      subst hkv
      simp [List.isEmpty_iff, relPair_ne_nil kv]
    · rcases List.mem_map.mp hx with ⟨kv, _, hkv⟩
      subst hkv
      exact amp_not_mem_relPair kv

/-! # Stage lemmas for the codec -/

theorem Jso.get_some_mem (o : Jso) (k : String) (v : Value) (h : o.get k = some v) :
    (k, v) ∈ o := by
  induction o with
  | nil => cases h
  | cons p t ih =>
    obtain ⟨k0, v0⟩ := p
    by_cases h0 : k0 = k
    · subst h0
      simp only [Jso.get, beq_self_eq_true, if_pos, Option.some.injEq] at h
      subst h
      exact List.mem_cons_self _ _
    · rw [show Jso.get ((k0, v0) :: t) k = Jso.get t k from by simp [Jso.get, h0]] at h
      exact List.mem_cons_of_mem _ (ih h)

theorem Jso.mem_del_iff (o : Jso) (k : String) (kv : String × Value) :
    kv ∈ o.del k ↔ kv ∈ o ∧ kv.1 ≠ k := by
  induction o with
  | nil => simp [Jso.del]
  | cons p t ih =>
    obtain ⟨k0, v0⟩ := p
    by_cases h0 : k0 = k
    · subst h0
      rw [show Jso.del ((k0, v0) :: t) k0 = Jso.del t k0 from by simp [Jso.del]]
      rw [ih]
      constructor
      · rintro ⟨hm, hne⟩
        exact ⟨List.mem_cons_of_mem _ hm, hne⟩
      · rintro ⟨hm, hne⟩
        rcases List.mem_cons.mp hm with he | hm2
        · exact absurd (by rw [he]) hne
        · exact ⟨hm2, hne⟩
    · rw [show Jso.del ((k0, v0) :: t) k = (k0, v0) :: Jso.del t k from by simp [Jso.del, h0]]
      constructor
      · intro hm
        rcases List.mem_cons.mp hm with he | hm2
        · subst he
          exact ⟨List.mem_cons_self _ _, h0⟩
        · rcases ih.mp hm2 with ⟨hm3, hne⟩
          exact ⟨List.mem_cons_of_mem _ hm3, hne⟩
      · rintro ⟨hm, hne⟩
        rcases List.mem_cons.mp hm with he | hm2
        · subst he
          exact List.mem_cons_self _ _
        · exact List.mem_cons_of_mem _ (ih.mpr ⟨hm2, hne⟩)

theorem Jso.del_sublist (o : Jso) (k : String) : List.Sublist (o.del k) o := by
  induction o with
  | nil => simp [Jso.del]
  | cons p t ih =>
    obtain ⟨k0, v0⟩ := p
    by_cases h0 : k0 = k
    · rw [show Jso.del ((k0, v0) :: t) k = Jso.del t k from by simp [Jso.del, h0]]
      exact ih.trans (List.sublist_cons_self _ _)
    · rw [show Jso.del ((k0, v0) :: t) k = (k0, v0) :: Jso.del t k from by simp [Jso.del, h0]]
      exact ih.cons₂ _

theorem encWith_ne_nil (keep : Char → Bool) (l : List Char) (h : l ≠ []) :
    encWith keep l ≠ [] := by
  cases l with
  | nil => exact absurd rfl h
  | cons c t =>
    rw [encWith_cons]
    unfold encCharWith
    by_cases hk : keep c = true
    · simp [hk]
    · replace hk : keep c = false := by simpa using hk
      by_cases h256 : c.toNat < 256 <;> simp [hk, h256]

theorem strMk_data (l : List Char) : (String.mk l).data = l := rfl

theorem strMk_isEmpty_false (l : List Char) (h : l ≠ []) :
    (String.mk l).isEmpty = false := by
  cases he : (String.mk l).isEmpty
  · rfl
  · have := (String.isEmpty_iff _).mp he
    have hd : l = [] := congrArg String.data this
    exact absurd hd h

theorem mapStage_no_zoom (s : Jso) (hz : s.get "zoom" = none) :
    mapStage s = .ok (none, s) := by
  unfold mapStage
  rw [hz]
  rfl

theorem filterNulls_id (s : Jso) (h : ∀ kv ∈ s, kv.2 ≠ Value.null) :
    filterNulls s = s := by
  unfold filterNulls
  exact List.filter_eq_self.mpr (fun kv hkv => by simp [bne_iff_ne, h kv hkv])

theorem foldS_id (ps : Params) (s : Jso) (h : ∀ q ∈ ps, s.get q.1 = none) :
    ps.foldl fmtStepS s = s := by
  induction ps with
  | nil => rfl
  | cons q t ih =>
    show t.foldl fmtStepS (fmtStepS s q) = s
    have hq : fmtStepS s q = s := by
      unfold fmtStepS
      rw [h q (List.mem_cons_self q t)]
    rw [hq, ih (fun r hr => h r (List.mem_cons_of_mem q hr))]

theorem foldP_id (ps : Params) (s : Jso) (h : ∀ q ∈ ps, s.get q.1 = none) :
    ps.foldl fmtStepP s = s := by
  induction ps with
  | nil => rfl
  | cons q t ih =>
    show t.foldl fmtStepP (fmtStepP s q) = s
    have hq : fmtStepP s q = s := by
      unfold fmtStepP
      rw [h q (List.mem_cons_self q t)]
    rw [hq, ih (fun r hr => h r (List.mem_cons_of_mem q hr))]

theorem mapExpand_no_map (ns : Jso) (h : ns.get "map" = none) : mapExpand ns = .ok ns := by
  unfold mapExpand
  rw [h]

theorem firstIdx_cons_ne (c x : Char) (l : List Char) (hb : (x == c) = false) :
    firstIdx c (x :: l) = (firstIdx c l).map (· + 1) := by
  conv_lhs => unfold firstIdx
  rw [hb]
  simp

theorem firstIdx_append_of_not_mem (c : Char) (l1 l2 : List Char) (h : c ∉ l1) :
    firstIdx c (l1 ++ l2) = (firstIdx c l2).map (· + l1.length) := by
  induction l1 with
  | nil => simp
  | cons x r ih =>
    simp only [List.mem_cons, not_or] at h
    have hb : (x == c) = false := by simp [Ne.symm h.1]
    show firstIdx c (x :: (r ++ l2)) = (firstIdx c l2).map (· + (r.length + 1))
    rw [firstIdx_cons_ne c x _ hb, ih h.2]
    cases firstIdx c l2 with
    | none => rfl
    | some i =>
      simp [Option.map]
      omega

theorem joinChar_rel_ne_nil (q : String × Value) (rest : List (List Char)) :
    joinChar '&' (relPair q :: rest) ≠ [] := by
  cases rest with
  | nil => exact relPair_ne_nil q
  | cons r t =>
    rw [joinChar_cons _ _ _ (by simp)]
    intro he
    rcases List.append_eq_nil.mp he with ⟨_, h2⟩
    cases h2

theorem firstIdx_eqs_joinRel (q : String × Value) (rest : List (List Char)) :
    firstIdx '=' (joinChar '&' (relPair q :: rest)) =
      some (encWith relaxedUnreserved q.1.data).length := by
  cases rest with
  | nil =>
    show firstIdx '=' (relPair q) = _
    unfold relPair
    exact firstIdx_append_cons _ _ _ (eqs_not_mem_encRelaxed _)
  | cons r t =>
    rw [joinChar_cons _ _ _ (by simp)]
    unfold relPair
    rw [List.append_assoc, List.cons_append]
    exact firstIdx_append_cons _ _ _ (eqs_not_mem_encRelaxed _)

/-! # Claim theorems -/

/-- C7: `apply` snapshots Previous as a shallow copy of Current before
merging, and the merge is a per-key overwrite patch: keys absent from the
input are left untouched in Current. -/
theorem apply_snapshot_and_patch (st : Store) (d : Jso) (opts : Opts) (loc : String)
    (hnd : d.keys.Nodup) :
    (Store.apply st (.objIn d) opts loc).store.previous = st.current ∧
    ∀ k, (Store.apply st (.objIn d) opts loc).store.current.get k =
      match d.get k with
      | some v => some v
      | none => st.current.get k := by
  have hstore : (Store.apply st (.objIn d) opts loc).store =
      { st with previous := st.current, current := mergeInto st.current d } := by
    unfold Store.apply Store.applyParse
    cases h : Opts.updateTruthy opts
    · rfl
    · simp only [if_true]
      split <;> rfl
  rw [hstore]
  refine ⟨rfl, fun k => ?_⟩
  cases h : d.get k with
  | some v => simpa using mergeInto_get_some st.current d k v hnd h
  | none => simpa using mergeInto_get_none st.current d k h

/-- C7 witness: after `apply({x:1})` on a store whose Current is `{x:1}`
(the result of a first `apply({x:1})` from the empty store), a second
`apply({y:2})` leaves Previous `{x:1}` and Current `{x:1, y:2}`. -/
theorem apply_snapshot_and_patch_witness :
    (Store.apply { current := [("x", Value.num ⟨1, 0⟩)] }
        (.objIn [("y", Value.num ⟨2, 0⟩)]) {} "").store.previous = [("x", Value.num ⟨1, 0⟩)] ∧
    ∀ k, (Store.apply { current := [("x", Value.num ⟨1, 0⟩)] }
        (.objIn [("y", Value.num ⟨2, 0⟩)]) {} "").store.current.get k =
      match Jso.get [("y", Value.num ⟨2, 0⟩)] k with
      | some v => some v
      | none => Jso.get [("x", Value.num ⟨1, 0⟩)] k :=
  apply_snapshot_and_patch { current := [("x", Value.num ⟨1, 0⟩)] }
    [("y", Value.num ⟨2, 0⟩)] {} "" (by decide)

/-- C10: when `apply`'s input is null or a string whose parsing throws,
the exception propagates, Previous has already been overwritten with a
shallow copy of Current, and Current is unchanged. -/
theorem apply_parse_error_not_atomic (st : Store) (input : ApplyInput) (opts : Opts)
    (loc : String) (e : JsErr)
    (hperr : Store.applyParse { st with previous := st.current } input loc = .error e) :
    (Store.apply st input opts loc).res = .error e ∧
    (Store.apply st input opts loc).store.previous = st.current ∧
    (Store.apply st input opts loc).store.current = st.current := by
  simp only [Store.apply]
  rw [hperr]
  exact ⟨rfl, rfl, rfl⟩

/-- C10 witness: `apply("%zz")` on a store with Current `{a:1}` throws a
`URIError` from `decodeURIComponent`, with Previous overwritten and
Current untouched. -/
theorem apply_parse_error_not_atomic_witness :
    (Store.apply { current := [("a", Value.num ⟨1, 0⟩)] } (.strIn "%zz") {} "").res =
      .error JsErr.uriError ∧
    (Store.apply { current := [("a", Value.num ⟨1, 0⟩)] } (.strIn "%zz") {} "").store.previous =
      [("a", Value.num ⟨1, 0⟩)] ∧
    (Store.apply { current := [("a", Value.num ⟨1, 0⟩)] } (.strIn "%zz") {} "").store.current =
      [("a", Value.num ⟨1, 0⟩)] :=
  apply_parse_error_not_atomic { current := [("a", Value.num ⟨1, 0⟩)] } (.strIn "%zz") {} ""
    JsErr.uriError (by decide)

theorem updateLink_not_emit (st : Store) (push : Bool) (eff : Eff)
    (h : Store.updateLink st push = .ok eff) : eff.isEmitApply = false := by
  unfold Store.updateLink at h
  cases hs : Store.stringify st none with
  | error e => rw [hs] at h; exact absurd h (by simp [Except.map])
  | ok s =>
    rw [hs] at h
    simp only [Except.map, Except.ok.injEq] at h
    subst h
    cases push <;> rfl

theorem apply_shape (st : Store) (input : ApplyInput) (opts : Opts) (loc : String) :
    (∃ e, (Store.apply st input opts loc).res = .error e ∧
      (Store.apply st input opts loc).effs = []) ∨
    (∃ d, (Store.apply st input opts loc).res = .ok d ∧
      ((Store.apply st input opts loc).effs = [Eff.timeoutEmit d] ∨
       ∃ eff, eff.isEmitApply = false ∧
         (Store.apply st input opts loc).effs = [eff, Eff.timeoutEmit d])) := by
  unfold Store.apply
  dsimp only
  split
  · exact .inl ⟨_, rfl, rfl⟩
  · split
    · split
      · exact .inl ⟨_, rfl, rfl⟩
      · exact .inr ⟨_, rfl, .inr ⟨_, updateLink_not_emit _ _ _ (by assumption), rfl⟩⟩
    · exact .inr ⟨_, rfl, .inl rfl⟩

theorem isEmitApply_timeout (s : Jso) : (Eff.timeoutEmit s).isEmitApply = false := rfl

/-- C6: the `'apply'` broadcast is scheduled via `setTimeout(..., 0)`,
never performed synchronously inside `apply`: the effects of `apply`
contain no synchronous listener invocation, and on success they contain
the scheduled task carrying the merged delta (which `runTimer` later
turns into the actual broadcast). -/
theorem apply_broadcast_async (st : Store) (input : ApplyInput) (opts : Opts) (loc : String) :
    ((Store.apply st input opts loc).effs.all (fun e => !e.isEmitApply)) = true ∧
    ∀ d, (Store.apply st input opts loc).res = .ok d →
      Eff.timeoutEmit d ∈ (Store.apply st input opts loc).effs ∧
        runTimer (Eff.timeoutEmit d) = [Eff.emitApply d] := by
  rcases apply_shape st input opts loc with ⟨e, hres, heffs⟩ |
    ⟨d0, hres, heffs | ⟨eff, heff, heffs⟩⟩
  · refine ⟨by rw [heffs]; rfl, fun d hd => ?_⟩
    rw [hres] at hd
    exact absurd hd (by simp)
  · refine ⟨by rw [heffs]; simp [isEmitApply_timeout], fun d hd => ?_⟩
    rw [hres] at hd
    simp only [Except.ok.injEq] at hd
    subst hd
    rw [heffs]
    exact ⟨by simp, rfl⟩
  · refine ⟨by rw [heffs]; simp [isEmitApply_timeout, heff], fun d hd => ?_⟩
    rw [hres] at hd
    simp only [Except.ok.injEq] at hd
    subst hd
    rw [heffs]
    exact ⟨by simp, rfl⟩

/-- C2 counterexample: `apply({x:1}, {update:'replace'})` on a store with
no `'get'` listeners updates the URL to `"#"` — the stringification of
`this.get()` (empty) — and not to `"#x=1"`, the stringification of the
passed-in delta.  The claim that the URL is built from the post-merge
delta is false on the code. -/
theorem apply_url_delta_cex :
    (Store.apply {} (.objIn [("x", Value.num ⟨1, 0⟩)]) { update := some "replace" } "").effs =
      [Eff.histReplace "#", Eff.timeoutEmit [("x", Value.num ⟨1, 0⟩)]] ∧
    stringifyOn [] [("x", Value.num ⟨1, 0⟩)] = .ok "x=1" ∧
    Eff.histReplace "#x=1" ∉
      (Store.apply {} (.objIn [("x", Value.num ⟨1, 0⟩)]) { update := some "replace" } "").effs := by
  decide

/-- C2 amended: when `options.update` is truthy, the browser URL is
updated with `'#' + stringify(this.get())` — the state collected from the
`'get'` listeners — not with the stringified delta and not with the
accumulated Current (`updateLink` calls `this.stringify()` with no
argument). -/
theorem apply_url_from_get (st : Store) (input : ApplyInput) (opts : Opts) (loc : String)
    (u link : String) (d : Jso)
    (hu : opts.update = some u) (hut : u ≠ "")
    (hok : (Store.apply st input opts loc).res = .ok d)
    (hstr : stringifyOn st.parameters (Store.get st) = .ok link) :
    (if u = "push" then Eff.histPush ("#" ++ link) else Eff.histReplace ("#" ++ link)) ∈
      (Store.apply st input opts loc).effs := by
  have ht : opts.updateTruthy = true := by
    unfold Opts.updateTruthy
    rw [hu]
    cases he : u.isEmpty
    · simp [he]
    · exact absurd ((String.isEmpty_iff u).mp he) hut
  simp only [Store.apply] at hok ⊢
  cases hp : Store.applyParse { st with previous := st.current } input loc with
  | error e =>
    rw [hp] at hok
    simp at hok
  | ok delta =>
    rw [hp] at hok
    dsimp only at hok ⊢
    simp only [ht, eq_self_iff_true, if_true] at hok ⊢
    have hul : Store.updateLink
        { st with previous := st.current, current := mergeInto st.current delta }
        (opts.update == some "push") =
        (stringifyOn st.parameters (Store.get st)).map
          (fun s => if (opts.update == some "push") then Eff.histPush ("#" ++ s)
            else Eff.histReplace ("#" ++ s)) := by
      unfold Store.updateLink Store.stringify
      rfl
    rw [hstr] at hul
    simp only [Except.map] at hul
    rw [hul] at hok ⊢
    dsimp only at hok ⊢
    by_cases hpu : u = "push"
    · simp [hu, hpu]
    · simp [hu, hpu]

/-- C2 amended witness: on the empty store, `apply({x:1},
{update:'replace'})` records the history effect `"#"` (from
`stringify(get())` with no listeners). -/
theorem apply_url_from_get_witness :
    (if "replace" = "push" then Eff.histPush ("#" ++ "") else Eff.histReplace ("#" ++ "")) ∈
      (Store.apply {} (.objIn [("x", Value.num ⟨1, 0⟩)]) { update := some "replace" } "").effs :=
  apply_url_from_get {} (.objIn [("x", Value.num ⟨1, 0⟩)]) { update := some "replace" } ""
    "replace" "" [("x", Value.num ⟨1, 0⟩)] rfl (by decide) (by decide) (by decide)

theorem mapExpand_get_map (ns out : Jso) (h : mapExpand ns = .ok out) :
    out.get "map" = none ∨ out.get "map" = some (.str "auto") := by
  unfold mapExpand at h
  cases hm : ns.get "map" with
  | none =>
    rw [hm] at h
    simp only [Except.ok.injEq] at h
    subst h
    exact .inl hm
  | some mv =>
    rw [hm] at h
    dsimp only at h
    by_cases ha : mv = Value.str "auto"
    · rw [if_neg (by simp [ha])] at h
      simp only [Except.ok.injEq] at h
      subst h
      exact .inr (ha ▸ hm)
    · rw [if_pos (by simp [ha])] at h
      cases mv with
      | str m =>
        dsimp only at h
        simp only [Except.ok.injEq] at h
        subst h
        exact .inl (Jso.get_del_self _ _)
      | num d => exact absurd h (by simp)
      | nan => exact absurd h (by simp)
      | null => exact absurd h (by simp)

theorem foldP_map_preserved (ps : Params) (ns : Jso)
    (hps : ∀ p ∈ ps, p.1 = "map" → p.2.parse = none) :
    (ps.foldl fmtStepP ns).get "map" = ns.get "map" := by
  induction ps generalizing ns with
  | nil => rfl
  | cons p t ih =>
    show (t.foldl fmtStepP (fmtStepP ns p)).get "map" = ns.get "map"
    rw [ih _ (fun q hq => hps q (List.mem_cons_of_mem p hq))]
    unfold fmtStepP
    cases hv : ns.get p.1 with
    | none => cases p.2.parse <;> rfl
    | some v =>
      cases hf : p.2.parse with
      | none => rfl
      | some f =>
        by_cases hk : p.1 = "map"
        · rw [hps p (List.mem_cons_self p t) hk] at hf
          exact absurd hf (by simp)
        · cases htr : truthy v
          · simp [htr]
          · simp only [htr, if_true]
            exact Jso.get_set_ne _ _ _ _ (Ne.symm hk)

/-- C5 counterexample: the invariant is violated in a reachable state:
after `apply("map=5/1/2")` then `apply("map=auto")` (parse keeps a `map`
value equal to the literal `'auto'`), Current contains `map` together
with `zoom`, `lat` and `lon`. -/
theorem current_map_coexists_cex :
    ((Store.apply (Store.apply {} (.strIn "map=5/1/2") {} "").store
        (.strIn "map=auto") {} "").store.current.get "map" = some (.str "auto")) ∧
    ((Store.apply (Store.apply {} (.strIn "map=5/1/2") {} "").store
        (.strIn "map=auto") {} "").store.current.get "zoom" = some (.num ⟨5, 0⟩)) ∧
    ((Store.apply (Store.apply {} (.strIn "map=5/1/2") {} "").store
        (.strIn "map=auto") {} "").store.current.get "lat" = some (.num ⟨1, 0⟩)) ∧
    ((Store.apply (Store.apply {} (.strIn "map=5/1/2") {} "").store
        (.strIn "map=auto") {} "").store.current.get "lon" = some (.num ⟨2, 0⟩)) := by
  decide

/-- C5 amended: translation does happen at the parse boundary, with one
exception the invariant must carve out: a successful `parse` (with no
`map` parse-formatter registered) returns a state in which `map` is
either absent or carries the literal string `'auto'`; a `map` value of
`'auto'` (or a pre-built object passed to `apply`) can therefore coexist
with `zoom`/`lat`/`lon` inside Current. -/
theorem parse_map_only_auto (ps : Params) (loc : String) (linkArg : Option String) (out : Jso)
    (hps : ∀ p ∈ ps, p.1 = "map" → p.2.parse = none)
    (hok : parseOn ps loc linkArg = .ok out) :
    out.get "map" = none ∨ out.get "map" = some (.str "auto") := by
  unfold parseOn at hok
  dsimp only at hok
  split at hok
  · exact absurd hok (by simp)
  · split at hok
    · exact absurd hok (by simp)
    · simp only [Except.ok.injEq] at hok
      subst hok
      rw [foldP_map_preserved _ _ hps]
      exact mapExpand_get_map _ _ (by assumption)

/-- C5 amended witness: parsing `"map=auto&x=1"` keeps `map` with the
literal value `'auto'`. -/
theorem parse_map_only_auto_witness :
    Jso.get [("map", Value.str "auto"), ("x", Value.str "1")] "map" = none ∨
    Jso.get [("map", Value.str "auto"), ("x", Value.str "1")] "map" = some (.str "auto") :=
  parse_map_only_auto [] "" (some "map=auto&x=1")
    [("map", Value.str "auto"), ("x", Value.str "1")]
    (by intro p hp; exact absurd hp (List.not_mem_nil p)) (by decide)

/-- C1 counterexample: a failing module init hook is alerted, yet the
bootstrap still reaches the first `state.apply(initState)` — the
`initModules` callback in `App` calls `loadCssFiles()` and `callback()`
unconditionally after alerting. -/
theorem bootstrap_cex :
    (bootstrap [] [.error "boom"] [] (.obj []) "").applied = some [] ∧
    (bootstrap [] [.error "boom"] [] (.obj []) "").alerts = ["boom"] := by
  decide

/-- C1 amended: a module init-hook failure is surfaced (alerted) but does
not by itself short-circuit startup: CSS loading always proceeds, and
the first `state.apply(initState)` is still reached provided the rest of
`getInitState` succeeds — `state.parse()` does not throw, a string
`defaultState` renders and YAML-parses without error, and no
`'init'`-event promise rejects.  Each of those later failures
independently prevents the first apply: a parse exception escapes
unguarded, while a render, YAML or promise error is alerted. -/
theorem bootstrap_proceeds (ps : Params) (hooks initPromises : List (Except String Unit))
    (dflt : DefaultSpec) (loc : String) :
    (∀ e, initModulesFirstErr hooks = some e →
      e ∈ (bootstrap ps hooks initPromises dflt loc).alerts) ∧
    (bootstrap ps hooks initPromises dflt loc).cssLoaded = true ∧
    (∀ us ds, parseOn ps loc none = .ok us →
      dflt = .obj ds ∨ dflt = .tpl (.ok ds) →
      firstRejected initPromises = none →
      (bootstrap ps hooks initPromises dflt loc).applied = some (mergeInto ds us)) ∧
    (∀ e, parseOn ps loc none = .error e →
      (bootstrap ps hooks initPromises dflt loc).thrown = some e ∧
      (bootstrap ps hooks initPromises dflt loc).applied = none) ∧
    (∀ us e, parseOn ps loc none = .ok us →
      dflt = .tpl (.renderErr e) ∨ dflt = .tpl (.yamlErr e) →
      e ∈ (bootstrap ps hooks initPromises dflt loc).alerts ∧
      (bootstrap ps hooks initPromises dflt loc).applied = none) ∧
    (∀ us ds e, parseOn ps loc none = .ok us →
      dflt = .obj ds ∨ dflt = .tpl (.ok ds) →
      firstRejected initPromises = some e →
      e ∈ (bootstrap ps hooks initPromises dflt loc).alerts ∧
      (bootstrap ps hooks initPromises dflt loc).applied = none) := by
  refine ⟨?_, ?_, ?_, ?_, ?_, ?_⟩
  · intro e he
    unfold bootstrap
    rw [he]
    cases hp : parseOn ps loc none
    · simp
    · rcases dflt with o | r
      · cases hr : firstRejected initPromises <;> simp
      · rcases r with e2 | e2 | o2
        · simp
        · simp
        · cases hr : firstRejected initPromises <;> simp
  · unfold bootstrap
    cases hm : initModulesFirstErr hooks <;>
      cases hp : parseOn ps loc none
    · rfl
    · rcases dflt with o | r
      · cases hr : firstRejected initPromises <;> rfl
      · rcases r with e2 | e2 | o2
        · rfl
        · rfl
        · cases hr : firstRejected initPromises <;> rfl
    · rfl
    · rcases dflt with o | r
      · cases hr : firstRejected initPromises <;> rfl
      · rcases r with e2 | e2 | o2
        · rfl
        · rfl
        · cases hr : firstRejected initPromises <;> rfl
  · intro us ds hp hd hr
    unfold bootstrap
    rw [hp, hr]
    rcases hd with rfl | rfl <;> cases hm : initModulesFirstErr hooks <;> rfl
  · intro e hp
    unfold bootstrap
    rw [hp]
    cases hm : initModulesFirstErr hooks <;> exact ⟨rfl, rfl⟩
  · intro us e hp hd
    unfold bootstrap
    rw [hp]
    rcases hd with rfl | rfl <;> cases hm : initModulesFirstErr hooks <;> simp
  · intro us ds e hp hd hr
    unfold bootstrap
    rw [hp, hr]
    rcases hd with rfl | rfl <;> cases hm : initModulesFirstErr hooks <;> simp

/-- C1 amended witness: with a failing hook, an empty location hash, a
plain-object default state and no init promises, the hook error is
alerted, CSS is loaded, and the first `apply` is still reached with the
merged initial state. -/
theorem bootstrap_proceeds_witness :
    "boom" ∈ (bootstrap [] [.error "boom"] [] (.obj [("x", Value.num ⟨1, 0⟩)]) "").alerts ∧
    (bootstrap [] [.error "boom"] [] (.obj [("x", Value.num ⟨1, 0⟩)]) "").cssLoaded = true ∧
    (bootstrap [] [.error "boom"] [] (.obj [("x", Value.num ⟨1, 0⟩)]) "").applied =
      some (mergeInto [("x", Value.num ⟨1, 0⟩)] []) :=
  ⟨(bootstrap_proceeds [] [.error "boom"] [] (.obj [("x", Value.num ⟨1, 0⟩)]) "").1 "boom" rfl,
    (bootstrap_proceeds [] [.error "boom"] [] (.obj [("x", Value.num ⟨1, 0⟩)]) "").2.1,
    (bootstrap_proceeds [] [.error "boom"] [] (.obj [("x", Value.num ⟨1, 0⟩)]) "").2.2.1
      [] [("x", Value.num ⟨1, 0⟩)] (by decide) (Or.inl rfl) rfl⟩

theorem readH_append (h : Heap) (l : List Jso) (r : Nat) (hr : r < h.length) :
    Heap.readH (h ++ l) r = h.readH r := by
  unfold Heap.readH
  rw [List.getD_eq_getElem?_getD, List.getD_eq_getElem?_getD, List.getElem?_append, if_pos hr]

theorem readH_writeH_ne (h : Heap) (w r : Nat) (o : Jso) (hne : w ≠ r) :
    Heap.readH (h.writeH w o) r = h.readH r := by
  unfold Heap.readH Heap.writeH
  rw [List.getD_eq_getElem?_getD, List.getD_eq_getElem?_getD, List.getElem?_set_ne hne]

/-- C9: `stringify` never mutates its caller's state object: on the
explicit heap, the deletions, the null-filtering and the formatter
replacements all target the working copy (or its `fromEntries`
replacement), and the object at the caller's reference is unchanged;
the computed string agrees with the functional `stringifyOn`. -/
theorem stringify_no_mutation (ps : Params) (h : Heap) (r : Nat) (hr : r < h.length) :
    (stringifyHeap ps h r).1.readH r = h.readH r ∧
    (stringifyHeap ps h r).2 = stringifyOn ps (h.readH r) := by
  unfold stringifyHeap stringifyOn
  dsimp only
  cases hps : pathStage (Heap.readH h r) with
  | mk link1 s1 =>
    dsimp only
    cases hms : mapStage s1 with
    | error e =>
      refine ⟨?_, rfl⟩
      rw [readH_writeH_ne, readH_append]
      · exact hr
      · exact Ne.symm (Nat.ne_of_lt hr)
    | ok pr =>
      obtain ⟨mseg, s2⟩ := pr
      refine ⟨?_, rfl⟩
      rw [readH_writeH_ne, readH_append, readH_writeH_ne, readH_writeH_ne, readH_append]
      all_goals
        try simp only [Heap.writeH, List.length_set, List.length_append, List.length_cons,
          List.length_nil]
      all_goals omega

/-- C9 witness: a concrete heap with one object; stringifying it leaves
the object at the caller's reference untouched. -/
theorem stringify_no_mutation_witness :
    (stringifyHeap [] [[("path", Value.str "p"), ("zoom", Value.null)]] 0).1.readH 0 =
      Heap.readH [[("path", Value.str "p"), ("zoom", Value.null)]] 0 ∧
    (stringifyHeap [] [[("path", Value.str "p"), ("zoom", Value.null)]] 0).2 =
      stringifyOn [] (Heap.readH [[("path", Value.str "p"), ("zoom", Value.null)]] 0) :=
  stringify_no_mutation [] [[("path", Value.str "p"), ("zoom", Value.null)]] 0 (by decide)

theorem list_isEmpty_false {α : Type} (l : List α) (h : l ≠ []) : l.isEmpty = false := by
  cases l with
  | nil => exact absurd rfl h
  | cons a t => rfl

/-- C3 amended: for every state with a string-valued `path` key and
otherwise only string-valued fields whose keys avoid the reserved
`map`/`zoom`/`lat`/`lon` and have no registered formatter,
`parse(stringify(state))` reproduces the state exactly as a key-value
mapping. -/
theorem roundtrip_string_fields (ps : Params) (s : Jso) (loc : String) (p : String)
    (hnd : (Jso.keys s).Nodup)
    (hpath : s.get "path" = some (Value.str p))
    (hvals : ∀ kv ∈ s, ∃ v, kv.2 = Value.str v)
    (hres : ∀ kv ∈ s, kv.1 ≠ "map" ∧ kv.1 ≠ "zoom" ∧ kv.1 ≠ "lat" ∧ kv.1 ≠ "lon")
    (hfmt : ∀ kv ∈ s, ∀ q ∈ ps, q.1 ≠ kv.1) :
    ∃ link out, stringifyOn ps s = .ok link ∧ parseOn ps loc (some link) = .ok out ∧
      Jso.equiv out s := by
  have hget_none : ∀ k', (∀ kv ∈ s, kv.1 ≠ k') → s.get k' = none := by
    intro k' hk'
    cases h : s.get k' with
    | none => rfl
    | some v => exact absurd rfl (hk' (k', v) (Jso.get_some_mem s k' v h))
  have hzoom : s.get "zoom" = none := hget_none _ (fun kv hkv => (hres kv hkv).2.1)
  have hpmem : ("path", Value.str p) ∈ s := Jso.get_some_mem _ _ _ hpath
  by_cases hp : p = ""
  · subst hp
    have hP : pathStage s = ([], s) := by
      unfold pathStage
      rw [hpath]
      dsimp only
      rw [show truthy (Value.str "") = false from rfl]
      simp
    have hstr : stringifyOn ps s = .ok (String.mk (assembleLink [] none s)) := by
      unfold stringifyOn
      rw [hP]
      dsimp only
      rw [mapStage_no_zoom _ hzoom]
      dsimp only
      rw [filterNulls_id _ (fun kv hkv => by
        obtain ⟨v, hv⟩ := hvals kv hkv
        rw [hv]
        intro hc
        cases hc)]
      rw [foldS_id ps _ (fun r hr => ?_)]
      cases h : s.get r.1 with
      | none => rfl
      | some v => exact absurd rfl (hfmt _ (Jso.get_some_mem _ _ _ h) r hr)
    cases hsort : sortByKeys s with
    | nil =>
      exfalso
      have hperm := sortByKeys_perm s
      rw [hsort] at hperm
      have hnil : s = [] := hperm.symm.eq_nil
      rw [hnil] at hpath
      cases hpath
    | cons q t =>
      have hperm := sortByKeys_perm s
      rw [hsort] at hperm
      have hvals2 : ∀ kv ∈ q :: t, ∃ v, kv.2 = Value.str v :=
        fun kv hkv => hvals kv (hperm.subset hkv)
      have hhash : replace3 (qsStringify s) = joinChar '&' ((q :: t).map relPair) := by
        have h0 := replace3_qsJoin (q :: t) hvals2
        unfold qsStringify
        rw [hsort]
        exact h0
      have hhne : joinChar '&' ((q :: t).map relPair) ≠ [] := by
        rw [show (q :: t).map relPair = relPair q :: t.map relPair from rfl]
        exact joinChar_rel_ne_nil q _
      have hassm : assembleLink [] none s = joinChar '&' ((q :: t).map relPair) := by
        unfold assembleLink
        dsimp only
        rw [hhash, list_isEmpty_false _ hhne]
        simp
      have hgetqt : ∀ k, Jso.get (q :: t) k = Jso.get s k := by
        intro k
        have hgs := get_sortByKeys s hnd k
        rw [hsort] at hgs
        exact hgs
      refine ⟨String.mk (joinChar '&' ((q :: t).map relPair)), q :: t, ?_, ?_, ?_⟩
      · rw [hstr, hassm]
      · have hsp : parseSplit (joinChar '&' ((q :: t).map relPair)) =
            ([], joinChar '&' ((q :: t).map relPair)) := by
          unfold parseSplit
          rw [list_isEmpty_false _ hhne]
          rw [show (q :: t).map relPair = relPair q :: t.map relPair from rfl,
            firstIdx_eqs_joinRel q _]
          cases t with
          | nil =>
            rw [show List.map relPair ([] : List (String × Value)) = [] from rfl,
              show joinChar '&' [relPair q] = relPair q from rfl,
              firstIdx_of_not_mem '&' _ (amp_not_mem_relPair q)]
            simp
          | cons r t2 =>
            rw [joinChar_cons '&' _ _ (by simp),
              firstIdx_append_cons '&' _ _ (amp_not_mem_relPair q)]
            dsimp only
            have hge : ¬ ((relPair q).length <
                (encWith relaxedUnreserved q.1.data).length) := by
              simp only [relPair, List.length_append, List.length_cons]
              omega
            rw [if_neg hge]
            simp
        have hqs : qsParse (joinChar '&' ((q :: t).map relPair)) = q :: t := by
          have h0 := qs_roundtrip s hnd hvals
          rw [hsort] at h0
          rw [hhash] at h0
          exact h0
        have hmapqt : Jso.get (q :: t) "map" = none := by
          rw [hgetqt]
          exact hget_none _ (fun kv hkv => (hres kv hkv).1)
        unfold parseOn
        simp only [strMk_isEmpty_false _ hhne, Bool.false_eq_true, if_false, strMk_data, hsp]
        simp only [show (([] : List Char).isEmpty) = true from rfl, if_true]
        simp only [hqs]
        rw [mapExpand_no_map _ hmapqt]
        dsimp only
        rw [foldP_id ps (q :: t) (fun r hr => ?_)]
        rw [hgetqt]
        cases h : s.get r.1 with
        | none => rfl
        | some v => exact absurd rfl (hfmt _ (Jso.get_some_mem _ _ _ h) r hr)
      · intro k
        exact hgetqt k
  · -- truthy path
    have hP : pathStage s = (encWith uriUnreserved p.data, s.del "path") := by
      unfold pathStage encodeURIComponentL
      rw [hpath]
      have hie : p.isEmpty = false := by
        cases he : p.isEmpty
        · rfl
        · exact absurd ((String.isEmpty_iff p).mp he) hp
      simp [truthy, hie, valueToStr]
    have hz1 : (s.del "path").get "zoom" = none := by
      rw [Jso.get_del_ne _ _ _ (by decide)]
      exact hzoom
    have hmem1 : ∀ kv, kv ∈ s.del "path" → kv ∈ s := fun kv hkv =>
      ((Jso.mem_del_iff s "path" kv).mp hkv).1
    have hnd1 : (Jso.keys (s.del "path")).Nodup :=
      ((Jso.del_sublist s "path").map Prod.fst).nodup hnd
    have hvals1 : ∀ kv ∈ s.del "path", ∃ v, kv.2 = Value.str v :=
      fun kv hkv => hvals kv (hmem1 kv hkv)
    have hstr : stringifyOn ps s =
        .ok (String.mk (assembleLink (encWith uriUnreserved p.data) none (s.del "path"))) := by
      unfold stringifyOn
      rw [hP]
      dsimp only
      rw [mapStage_no_zoom _ hz1]
      dsimp only
      rw [filterNulls_id _ (fun kv hkv => by
        obtain ⟨v, hv⟩ := hvals1 kv hkv
        rw [hv]
        intro hc
        cases hc)]
      rw [foldS_id ps _ (fun q hq => ?_)]
      cases h : (s.del "path").get q.1 with
      | none => rfl
      | some v =>
        have hm := hmem1 _ (Jso.get_some_mem _ _ _ h)
        exact absurd rfl (hfmt _ hm q hq)
    have hpd : p.data ≠ [] := fun hd => hp (by
      have h2 : String.mk p.data = p := rfl
      rw [← h2, hd])
    have hennil : encWith uriUnreserved p.data ≠ [] := encWith_ne_nil _ _ hpd
    cases hsort : sortByKeys (s.del "path") with
    | nil =>
      have hs1nil : s.del "path" = [] := by
        have hperm := sortByKeys_perm (s.del "path")
        rw [hsort] at hperm
        exact hperm.symm.eq_nil
      refine ⟨String.mk (encWith uriUnreserved p.data), [("path", Value.str p)], ?_, ?_, ?_⟩
      · rw [hstr, hs1nil]
        rfl
      · have hsp : parseSplit (encWith uriUnreserved p.data) =
            (encWith uriUnreserved p.data, []) := by
          unfold parseSplit
          rw [list_isEmpty_false _ hennil,
            firstIdx_of_not_mem _ _ (eqs_not_mem_encUri p.data),
            firstIdx_of_not_mem _ _ (amp_not_mem_encUri p.data)]
          rfl
        unfold parseOn
        simp only [strMk_isEmpty_false _ hennil, Bool.false_eq_true, if_false, strMk_data, hsp]
        simp only [list_isEmpty_false _ hennil, Bool.false_eq_true, if_false]
        rw [strictDecode_encWith uriUnreserved uriUnreserved_ne37 p.data]
        have hset : (qsParse []).set "path" (Value.str (String.mk p.data)) =
            [("path", Value.str p)] := rfl
        simp only [hset]
        rw [mapExpand_no_map _ (by simp [Jso.get])]
        dsimp only
        rw [foldP_id ps [("path", Value.str p)] (fun q hq => by
          have hq1 : q.1 ≠ "path" := hfmt _ hpmem q hq
          simp [Jso.get, Ne.symm hq1])]
      · intro k
        by_cases hk : k = "path"
        · subst hk
          rw [hpath]
          rfl
        · rw [show Jso.get [("path", Value.str p)] k = none from by
            simp [Jso.get, Ne.symm hk]]
          cases hsk : s.get k with
          | none => rfl
          | some v =>
            have hm : (k, v) ∈ s.del "path" :=
              (Jso.mem_del_iff s "path" (k, v)).mpr ⟨Jso.get_some_mem _ _ _ hsk, hk⟩
            rw [hs1nil] at hm
            cases hm
    | cons q t =>
      have hperm := sortByKeys_perm (s.del "path")
      rw [hsort] at hperm
      have hvals2 : ∀ kv ∈ q :: t, ∃ v, kv.2 = Value.str v :=
        fun kv hkv => hvals1 kv (hperm.subset hkv)
      have hhash : replace3 (qsStringify (s.del "path")) =
          joinChar '&' ((q :: t).map relPair) := by
        have h0 := replace3_qsJoin (q :: t) hvals2
        unfold qsStringify
        rw [hsort]
        exact h0
      have hhne : joinChar '&' ((q :: t).map relPair) ≠ [] := by
        rw [show (q :: t).map relPair = relPair q :: t.map relPair from rfl]
        exact joinChar_rel_ne_nil q _
      have hassm : assembleLink (encWith uriUnreserved p.data) none (s.del "path") =
          encWith uriUnreserved p.data ++ '&' :: joinChar '&' ((q :: t).map relPair) := by
        unfold assembleLink
        dsimp only
        rw [hhash, list_isEmpty_false _ hhne, list_isEmpty_false _ hennil]
        simp only [Bool.false_eq_true, if_false]
      refine ⟨String.mk (encWith uriUnreserved p.data ++
          '&' :: joinChar '&' ((q :: t).map relPair)),
        (q :: t) ++ [("path", Value.str p)], ?_, ?_, ?_⟩
      · rw [hstr, hassm]
      · have hlinkne : encWith uriUnreserved p.data ++
            '&' :: joinChar '&' ((q :: t).map relPair) ≠ [] := by
          intro he
          rcases List.append_eq_nil.mp he with ⟨h1, h2⟩
          cases h2
        have hfa : firstIdx '&' (encWith uriUnreserved p.data ++
            '&' :: joinChar '&' ((q :: t).map relPair)) =
            some (encWith uriUnreserved p.data).length :=
          firstIdx_append_cons _ _ _ (amp_not_mem_encUri _)
        have hfe : firstIdx '=' (encWith uriUnreserved p.data ++
            '&' :: joinChar '&' ((q :: t).map relPair)) =
            some ((encWith relaxedUnreserved q.1.data).length + 1 +
              (encWith uriUnreserved p.data).length) := by
          rw [firstIdx_append_of_not_mem _ _ _ (eqs_not_mem_encUri _),
            firstIdx_cons_ne '=' '&' _ (by decide),
            show (q :: t).map relPair = relPair q :: t.map relPair from rfl,
            firstIdx_eqs_joinRel q _]
          simp [Option.map]
        have hsp : parseSplit (encWith uriUnreserved p.data ++
            '&' :: joinChar '&' ((q :: t).map relPair)) =
            (encWith uriUnreserved p.data, joinChar '&' ((q :: t).map relPair)) := by
          unfold parseSplit
          rw [list_isEmpty_false _ hlinkne, hfe, hfa]
          dsimp only
          have hlt : (encWith uriUnreserved p.data).length <
              (encWith relaxedUnreserved q.1.data).length + 1 +
                (encWith uriUnreserved p.data).length := by omega
          rw [if_pos hlt]
          rw [List.take_left, drop_after_sep]
          simp
        have hqs : qsParse (joinChar '&' ((q :: t).map relPair)) = q :: t := by
          have h0 := qs_roundtrip (s.del "path") hnd1 hvals1
          rw [hsort] at h0
          rw [hhash] at h0
          exact h0
        have hpnot : Jso.get (q :: t) "path" = none := by
          cases hg : Jso.get (q :: t) "path" with
          | none => rfl
          | some v =>
            have hm2 : ("path", v) ∈ s.del "path" := hperm.subset (Jso.get_some_mem _ _ _ hg)
            exact absurd rfl ((Jso.mem_del_iff s "path" _).mp hm2).2
        have hmapqt : Jso.get (q :: t) "map" = none := by
          cases hg : Jso.get (q :: t) "map" with
          | none => rfl
          | some v =>
            have hm3 := hmem1 _ (hperm.subset (Jso.get_some_mem _ _ _ hg))
            exact absurd rfl ((hres _ hm3).1)
        have hmapnone : Jso.get ((q :: t) ++ [("path", Value.str p)]) "map" = none := by
          rw [Jso.get_append, hmapqt]
          simp [Jso.get]
        unfold parseOn
        simp only [strMk_isEmpty_false _ hlinkne, Bool.false_eq_true, if_false, strMk_data, hsp]
        simp only [list_isEmpty_false _ hennil, Bool.false_eq_true, if_false]
        rw [strictDecode_encWith uriUnreserved uriUnreserved_ne37 p.data]
        have hset2 : (qsParse (joinChar '&' ((q :: t).map relPair))).set "path"
            (Value.str (String.mk p.data)) = (q :: t) ++ [("path", Value.str p)] := by
          rw [hqs, Jso.set_eq_append _ _ _ hpnot]
        simp only [hset2]
        rw [mapExpand_no_map _ hmapnone]
        dsimp only
        rw [foldP_id ps ((q :: t) ++ [("path", Value.str p)]) (fun r hr => ?_)]
        rw [Jso.get_append]
        rw [show Jso.get (q :: t) r.1 = none from ?_]
        · have hr1 : r.1 ≠ "path" := hfmt _ hpmem r hr
          simp [Jso.get, Ne.symm hr1]
        · cases hg : Jso.get (q :: t) r.1 with
          | none => rfl
          | some v =>
            have hm3 := hmem1 _ (hperm.subset (Jso.get_some_mem _ _ _ hg))
            exact absurd rfl (hfmt _ hm3 r hr)
      · intro k
        rw [Jso.get_append]
        have hqt : Jso.get (q :: t) k = Jso.get (s.del "path") k := by
          have hgs := get_sortByKeys (s.del "path") hnd1 k
          rw [hsort] at hgs
          exact hgs
        cases hg : Jso.get (q :: t) k with
        | some v =>
          rw [hqt] at hg
          have hkne : k ≠ "path" := by
            intro he
            subst he
            rw [Jso.get_del_self] at hg
            cases hg
          dsimp only
          rw [show s.get k = Jso.get (s.del "path") k from
            (Jso.get_del_ne s "path" k hkne).symm, hg]
        | none =>
          dsimp only
          by_cases hk : k = "path"
          · subst hk
            rw [hpath]
            simp [Jso.get]
          · rw [hqt] at hg
            rw [show s.get k = Jso.get (s.del "path") k from
              (Jso.get_del_ne s "path" k hk).symm, hg]
            simp [Jso.get, Ne.symm hk]

/-- C3 counterexample: number-valued scalar fields do not survive the
round trip — `query-string`'s parse returns strings, so
`parse(stringify({path:'p', a:1}))` yields `a` bound to the string `"1"`,
not the number `1`; the state is not reproduced exactly. -/
theorem roundtrip_cex :
    stringifyOn [] [("path", Value.str "p"), ("a", Value.num ⟨1, 0⟩)] = .ok "p&a=1" ∧
    parseOn [] "" (some "p&a=1") = .ok [("a", Value.str "1"), ("path", Value.str "p")] ∧
    Jso.get [("a", Value.str "1"), ("path", Value.str "p")] "a" = some (Value.str "1") ∧
    Jso.get [("path", Value.str "p"), ("a", Value.num ⟨1, 0⟩)] "a" = some (Value.num ⟨1, 0⟩) ∧
    Value.str "1" ≠ Value.num ⟨1, 0⟩ := by
  decide

/-- C3 amended witness: the round trip at the concrete state
`{path:'p', a:'1'}`. -/
theorem roundtrip_string_fields_witness :
    ∃ link out, stringifyOn [] [("path", Value.str "p"), ("a", Value.str "1")] = .ok link ∧
      parseOn [] "" (some link) = .ok out ∧
      Jso.equiv out [("path", Value.str "p"), ("a", Value.str "1")] :=
  roundtrip_string_fields [] [("path", Value.str "p"), ("a", Value.str "1")] "" "p"
    (by decide) (by decide)
    (by
      intro kv hkv
      rcases List.mem_cons.mp hkv with h | h
      · exact ⟨"p", by rw [h]⟩
      · rcases List.mem_cons.mp h with h2 | h2
        · exact ⟨"1", by rw [h2]⟩
        · exact absurd h2 (List.not_mem_nil kv))
    (by decide)
    (fun kv _ q hq => absurd hq (List.not_mem_nil q))


/-- C6 witness: a concrete `apply` whose effect list contains the
scheduled task and no synchronous broadcast. -/
theorem apply_broadcast_async_witness :
    ((Store.apply {} (.objIn [("x", Value.num ⟨1, 0⟩)]) {} "").effs.all
      (fun e => !e.isEmitApply)) = true ∧
    Eff.timeoutEmit [("x", Value.num ⟨1, 0⟩)] ∈
      (Store.apply {} (.objIn [("x", Value.num ⟨1, 0⟩)]) {} "").effs ∧
    runTimer (Eff.timeoutEmit [("x", Value.num ⟨1, 0⟩)]) =
      [Eff.emitApply [("x", Value.num ⟨1, 0⟩)]] :=
  ⟨(apply_broadcast_async {} (.objIn [("x", Value.num ⟨1, 0⟩)]) {} "").1,
    (apply_broadcast_async {} (.objIn [("x", Value.num ⟨1, 0⟩)]) {} "").2
      [("x", Value.num ⟨1, 0⟩)] (by decide)⟩

/-! # C4 / C8: the map segment and the stringify formatters -/


theorem relPairV_null (k : String) : relPairV (k, Value.null) = encWith relaxedUnreserved k.data :=
  rfl

theorem relPairV_not_null (k : String) (v : Value) (h : v ≠ Value.null) :
    relPairV (k, v) = encWith relaxedUnreserved k.data ++ '=' ::
      encWith relaxedUnreserved (valueToStr v) := by
  cases v with
  | null => exact absurd rfl h
  | str s => rfl
  | num d => rfl
  | nan => rfl

theorem qsPair_not_null (k : String) (v : Value) (h : v ≠ Value.null) :
    qsPair k v = qsEncodeL k.data ++ '=' :: qsEncodeL (valueToStr v) := by
  cases v with
  | null => exact absurd rfl h
  | str s => rfl
  | num d => rfl
  | nan => rfl

theorem replace3_qsPairV_append (k : String) (v : Value) (r : List Char) :
    replace3 (qsPair k v ++ r) = relPairV (k, v) ++ replace3 r := by
  by_cases hv : v = Value.null
  · subst hv
    exact replace3_encStrict_append k.data r
  · have h1 : qsPair k v ++ r =
        encWith strictUnreserved k.data ++
          ('=' :: (encWith strictUnreserved (valueToStr v) ++ r)) := by
      rw [qsPair_not_null k v hv]
      simp [qsEncodeL]
    rw [h1, replace3_encStrict_append, replace3_cons_nonpercent '=' _ (by decide),
      replace3_encStrict_append, relPairV_not_null k v hv]
    simp

theorem replace3_qsJoinV (l : List (String × Value)) :
    replace3 (joinChar '&' (l.map (fun p => qsPair p.1 p.2))) =
      joinChar '&' (l.map relPairV) := by
  induction l with
  | nil => rfl
  | cons p t ih =>
    obtain ⟨pk, pv⟩ := p
    cases t with
    | nil =>
      show replace3 (qsPair pk pv) = relPairV (pk, pv)
      have h := replace3_qsPairV_append pk pv []
      rw [show replace3 ([] : List Char) = [] from rfl, List.append_nil, List.append_nil] at h
      exact h
    | cons q t2 =>
      rw [show List.map (fun p => qsPair p.1 p.2) ((pk, pv) :: q :: t2) =
          qsPair pk pv :: List.map (fun p => qsPair p.1 p.2) (q :: t2) from rfl,
        show List.map relPairV ((pk, pv) :: q :: t2) =
          relPairV (pk, pv) :: List.map relPairV (q :: t2) from rfl,
        joinChar_cons '&' _ _ (by simp),
        joinChar_cons '&' _ _ (by simp),
        replace3_qsPairV_append pk pv,
        replace3_cons_nonpercent '&' _ (by decide), ih]

theorem amp_not_mem_relPairV (kv : String × Value) : '&' ∉ relPairV kv := by
  obtain ⟨k, v⟩ := kv
  by_cases hv : v = Value.null
  · subst hv
    rw [relPairV_null]
    exact amp_not_mem_encRelaxed _
  · rw [relPairV_not_null k v hv]
    intro hm
    rcases List.mem_append.mp hm with hm | hm
    · exact amp_not_mem_encRelaxed _ hm
    · rcases List.mem_cons.mp hm with hm | hm
      · cases hm
      · exact amp_not_mem_encRelaxed _ hm

theorem joinChar_ne_nil_of_mem (c : Char) (parts : List (List Char)) (p : List Char)
    (hp : p ∈ parts) (hne : p ≠ []) : joinChar c parts ≠ [] := by
  cases parts with
  | nil => cases hp
  | cons q t =>
    cases t with
    | nil =>
      rcases List.mem_cons.mp hp with h | h
      · subst h
        exact hne
      · cases h
    | cons r t2 =>
      rw [joinChar_cons c q _ (by simp)]
      intro he
      rcases List.append_eq_nil.mp he with ⟨_, h2⟩
      cases h2

theorem fmtStepS_get_ne (s : Jso) (q : String × Formatter) (k : String) (h : q.1 ≠ k) :
    (fmtStepS s q).get k = s.get k := by
  unfold fmtStepS
  cases hg : Jso.get s q.1 with
  | none => rfl
  | some v =>
    cases hf : q.2.stringify with
    | none => rfl
    | some f =>
      dsimp only
      by_cases ht : truthy v = true
      · rw [if_pos ht]
        exact Jso.get_set_ne s q.1 k (f v) (fun he => h he.symm)
      · rw [if_neg ht]

theorem foldS_get_not_key (ps : Params) (k : String) :
    ∀ s : Jso, (∀ q ∈ ps, q.1 ≠ k) → (ps.foldl fmtStepS s).get k = s.get k := by
  induction ps with
  | nil => intro s _; rfl
  | cons q t ih =>
    intro s h
    show (t.foldl fmtStepS (fmtStepS s q)).get k = s.get k
    rw [ih (fmtStepS s q) (fun r hr => h r (List.mem_cons_of_mem q hr)),
      fmtStepS_get_ne s q k (h q (List.mem_cons_self q t))]

theorem foldS_get_point (k : String) (fmt : Formatter) (f : Value → Value) (v : Value)
    (hf : fmt.stringify = some f) (ht : truthy v = true) :
    ∀ ps : Params, (ps.map Prod.fst).Nodup → (k, fmt) ∈ ps →
      ∀ s : Jso, s.get k = some v → (ps.foldl fmtStepS s).get k = some (f v) := by
  intro ps
  induction ps with
  | nil =>
    intro _ hmem _ _
    cases hmem
  | cons q t ih =>
    intro hnd hmem s hv
    rw [List.map_cons, List.nodup_cons] at hnd
    rcases List.mem_cons.mp hmem with he | hm
    · have he' : q = (k, fmt) := he.symm
      subst he'
      show (t.foldl fmtStepS (fmtStepS s (k, fmt))).get k = some (f v)
      have hstep : fmtStepS s (k, fmt) = s.set k (f v) := by
        unfold fmtStepS
        dsimp only
        rw [hv, hf]
        dsimp only
        rw [if_pos ht]
      rw [hstep,
        foldS_get_not_key t k _ (fun r hr hrk => hnd.1 (show (k, fmt).1 ∈ List.map Prod.fst t by
          show k ∈ List.map Prod.fst t
          rw [← hrk]
          exact List.mem_map_of_mem Prod.fst hr)),
        Jso.get_set_self]
    · have hqk : q.1 ≠ k := by
        intro he
        exact hnd.1 (he ▸ (List.mem_map_of_mem Prod.fst hm : (k, fmt).1 ∈ t.map Prod.fst))
      exact ih hnd.2 hm (fmtStepS s q) (by rw [fmtStepS_get_ne s q k hqk]; exact hv)

theorem filterNulls_get_some (s : Jso) (k : String) (v : Value) (hv : v ≠ Value.null) :
    s.get k = some v → (filterNulls s).get k = some v := by
  induction s with
  | nil => intro h; cases h
  | cons p t ih =>
    intro h
    obtain ⟨k0, v0⟩ := p
    by_cases h0 : k0 = k
    · subst h0
      have hv0 : v0 = v := by simpa [Jso.get] using h
      subst hv0
      have hb : (v0 != Value.null) = true := by simpa using hv
      simp [filterNulls, List.filter, hb, Jso.get]
    · have ht : Jso.get t k = some v := by simpa [Jso.get, h0] using h
      by_cases hb : (v0 != Value.null) = true
      · simp only [filterNulls, List.filter, hb]
        rw [show Jso.get ((k0, v0) :: List.filter (fun kv => kv.2 != Value.null) t) k =
          Jso.get (List.filter (fun kv => kv.2 != Value.null) t) k from by simp [Jso.get, h0]]
        exact ih ht
      · simp only [filterNulls, List.filter, hb]
        exact ih ht

theorem mem_natToStrAux (fuel : Nat) :
    ∀ n c, c ∈ natToStrAux fuel n → ∃ d, d < 10 ∧ c = digitChar d := by
  induction fuel with
  | zero =>
    intro n c h
    cases h
  | succ fu ih =>
    intro n c h
    unfold natToStrAux at h
    by_cases hn : n < 10
    · rw [if_pos hn] at h
      exact ⟨n, hn, List.mem_singleton.mp h⟩
    · rw [if_neg hn] at h
      rcases List.mem_append.mp h with h | h
      · exact ih (n / 10) c h
      · exact ⟨n % 10, Nat.mod_lt n (by omega), List.mem_singleton.mp h⟩

theorem toFixed_no_amp_eqs (d : Dec) (f : Nat) (c : Char) (hc : c = '&' ∨ c = '=') :
    c ∉ d.toFixed f := by
  have hdig : ∀ k, k < 10 → c ≠ digitChar k := by rcases hc with rfl | rfl <;> decide
  have hdash : c ≠ '-' := by rcases hc with rfl | rfl <;> decide
  have hdot : c ≠ '.' := by rcases hc with rfl | rfl <;> decide
  have hnat : ∀ n, c ∉ natToStr n := by
    intro n hm
    rcases mem_natToStrAux _ _ _ hm with ⟨k, hk, he⟩
    exact hdig k hk he
  intro hm
  simp only [Dec.toFixed] at hm
  by_cases hf : (f == 0) = true
  · rw [if_pos hf] at hm
    unfold intToStr at hm
    by_cases hneg : (Int.fdiv (2 * d.m * (10 : Int) ^ f + (10 : Int) ^ d.e)
        (2 * (10 : Int) ^ d.e)) < 0
    · rw [if_pos hneg] at hm
      rcases List.mem_cons.mp hm with he | hm2
      · exact hdash he
      · exact hnat _ hm2
    · rw [if_neg hneg] at hm
      exact hnat _ hm
  · rw [if_neg hf] at hm
    rcases List.mem_append.mp hm with hm1 | hm1
    · rcases List.mem_append.mp hm1 with hm2 | hm2
      · by_cases hneg : (Int.fdiv (2 * d.m * (10 : Int) ^ f + (10 : Int) ^ d.e)
            (2 * (10 : Int) ^ d.e)) < 0
        · rw [if_pos hneg] at hm2
          exact hdash (List.mem_singleton.mp hm2)
        · rw [if_neg hneg] at hm2
          cases hm2
      · exact hnat _ hm2
    · rcases List.mem_cons.mp hm1 with he | hm2
      · exact hdot he
      · unfold padZeros at hm2
        rcases List.mem_append.mp hm2 with hm3 | hm3
        · exact hdig 0 (by omega) ((List.eq_of_mem_replicate hm3).trans (by decide))
        · exact hnat _ hm3

theorem amp_not_mem_toFixedE (v : Value) (f : Nat) (l : List Char)
    (h : Value.toFixedE v f = .ok l) : '&' ∉ l := by
  cases v with
  | num d =>
    have hl : d.toFixed f = l := by
      simpa [Value.toFixedE] using h
    rw [← hl]
    exact toFixed_no_amp_eqs d f '&' (Or.inl rfl)
  | nan =>
    have hl : "NaN".data = l := by simpa [Value.toFixedE] using h
    rw [← hl]
    decide
  | str s => simp [Value.toFixedE] at h
  | null => simp [Value.toFixedE] at h

/-! `pathStage` and `mapStage` inversion. -/

theorem pathStage_inv (s : Jso) :
    ∃ L s1, pathStage s = (L, s1) ∧ (s1 = s ∨ s1 = s.del "path") ∧ '&' ∉ L ∧ '=' ∉ L := by
  unfold pathStage
  cases hg : Jso.get s "path" with
  | none => exact ⟨[], s, rfl, Or.inl rfl, by simp, by simp⟩
  | some v =>
    dsimp only
    by_cases ht : truthy v = true
    · rw [if_pos ht]
      exact ⟨_, _, rfl, Or.inr rfl, amp_not_mem_encUri _, eqs_not_mem_encUri _⟩
    · rw [if_neg ht]
      exact ⟨[], s, rfl, Or.inl rfl, by simp, by simp⟩

theorem mapStage_ok_inv (s : Jso) (m : Option (List Char)) (s2 : Jso)
    (h : mapStage s = .ok (m, s2)) :
    (m = none ∧ s2 = s) ∨
      (∃ seg, m = some seg ∧ '&' ∉ seg ∧ seg ≠ [] ∧
        s2 = ((s.del "zoom").del "lat").del "lon") := by
  simp only [mapStage] at h
  split at h
  · split at h
    · rename_i zs las los hzs hlas hlos
      injection h with h1
      rw [Prod.mk.injEq] at h1
      refine Or.inr ⟨_, h1.1.symm, ?_, by simp, h1.2.symm⟩
      intro hmem
      rcases List.mem_append.mp hmem with h2 | h2
      · rcases List.mem_append.mp h2 with h3 | h3
        · rcases List.mem_append.mp h3 with h4 | h4
          · exact absurd h4 (by decide)
          · exact amp_not_mem_toFixedE _ _ _ hzs h4
        · rcases List.mem_cons.mp h3 with h4 | h4
          · exact absurd h4 (by decide)
          · exact amp_not_mem_toFixedE _ _ _ hlas h4
      · rcases List.mem_cons.mp h2 with h4 | h4
        · exact absurd h4 (by decide)
        · exact amp_not_mem_toFixedE _ _ _ hlos h4
    · exact absurd h (by simp)
    · exact absurd h (by simp)
    · exact absurd h (by simp)
  · injection h with h1
    rw [Prod.mk.injEq] at h1
    exact Or.inl ⟨h1.1.symm, h1.2.symm⟩

/-! Link-assembly segment lemmas. -/

theorem qsSeg_mem_assemble (L : List Char) (mseg : Option (List Char)) (s4 : Jso)
    (P : List Char) (hL : '&' ∉ L) (hm : ∀ seg, mseg = some seg → '&' ∉ seg)
    (hP : P ∈ (sortByKeys s4).map relPairV) (hPne : P ≠ []) :
    P ∈ splitChar '&' (assembleLink L mseg s4) := by
  have hQ : replace3 (qsStringify s4) = joinChar '&' ((sortByKeys s4).map relPairV) := by
    unfold qsStringify
    exact replace3_qsJoinV (sortByKeys s4)
  have hparts_amp : ∀ p ∈ (sortByKeys s4).map relPairV, '&' ∉ p := by
    intro p hp
    rcases List.mem_map.mp hp with ⟨kv, _, rfl⟩
    exact amp_not_mem_relPairV kv
  have hsplitQ : splitChar '&' (joinChar '&' ((sortByKeys s4).map relPairV)) =
      (sortByKeys s4).map relPairV :=
    splitChar_join '&' _ (List.ne_nil_of_mem hP) hparts_amp
  have hnhne : joinChar '&' ((sortByKeys s4).map relPairV) ≠ [] :=
    joinChar_ne_nil_of_mem '&' _ P hP hPne
  simp only [assembleLink, hQ]
  rw [list_isEmpty_false _ hnhne]
  simp only [Bool.false_eq_true, if_false]
  cases mseg with
  | none =>
    by_cases hLe : L = []
    · subst hLe
      simp only [List.isEmpty_nil, if_true]
      rw [hsplitQ]
      exact hP
    · rw [list_isEmpty_false L hLe]
      simp only [Bool.false_eq_true, if_false]
      rw [splitChar_append '&' L _ hL, hsplitQ]
      exact List.mem_cons_of_mem L hP
  | some seg =>
    have hseg := hm seg rfl
    by_cases hLe : L = []
    · subst hLe
      simp only [List.isEmpty_nil, if_true]
      by_cases hsege : seg = []
      · subst hsege
        simp only [List.isEmpty_nil, if_true]
        rw [hsplitQ]
        exact hP
      · rw [list_isEmpty_false seg hsege]
        simp only [Bool.false_eq_true, if_false]
        rw [splitChar_append '&' seg _ hseg, hsplitQ]
        exact List.mem_cons_of_mem seg hP
    · rw [list_isEmpty_false L hLe]
      simp only [Bool.false_eq_true, if_false]
      rw [list_isEmpty_false (L ++ '&' :: seg) (by simp)]
      simp only [Bool.false_eq_true, if_false]
      rw [List.append_assoc, List.cons_append,
        splitChar_append '&' L _ hL, splitChar_append '&' seg _ hseg, hsplitQ]
      exact List.mem_cons_of_mem L (List.mem_cons_of_mem seg hP)

/-- C8 (amended): a registered `stringify` formatter for a non-reserved
key is applied exactly when the key's value is truthy, and the formatted
value is what gets encoded: the output link contains the encoded
`key=formatter.stringify(value)` pair as one of its `&`-separated
segments. -/
theorem formatter_stringify_truthy (ps : Params) (s : Jso) (k : String) (fmt : Formatter)
    (f : Value → Value) (v : Value) (out : String)
    (hnd : (ps.map Prod.fst).Nodup) (hmem : (k, fmt) ∈ ps) (hf : fmt.stringify = some f)
    (hkne : k ≠ "") (hkp : k ≠ "path") (hkz : k ≠ "zoom") (hkla : k ≠ "lat") (hklo : k ≠ "lon")
    (hv : s.get k = some v) (ht : truthy v = true)
    (hout : stringifyOn ps s = .ok out) :
    relPairV (k, f v) ∈ splitChar '&' out.data := by
  obtain ⟨L, s1, hps, hs1, hampL, heqsL⟩ := pathStage_inv s
  have hv1 : s1.get k = some v := by
    rcases hs1 with rfl | rfl
    · exact hv
    · rw [Jso.get_del_ne s "path" k hkp]
      exact hv
  unfold stringifyOn at hout
  rw [hps] at hout
  dsimp only at hout
  cases hm : mapStage s1 with
  | error e =>
    rw [hm] at hout
    exact absurd hout (by simp)
  | ok pr =>
    obtain ⟨mseg, s2⟩ := pr
    rw [hm] at hout
    dsimp only at hout
    have hodata : out = String.mk (assembleLink L mseg
        (ps.foldl fmtStepS (filterNulls s2))) := by
      injection hout with h1
      exact h1.symm
    have hboth : s2.get k = some v ∧ (∀ sg, mseg = some sg → '&' ∉ sg) := by
      rcases mapStage_ok_inv s1 mseg s2 hm with ⟨hmn, hs2⟩ | ⟨seg0, hmseg, hampseg, _, hs2⟩
      · subst hs2
        refine ⟨hv1, fun sg hsg => ?_⟩
        rw [hmn] at hsg
        cases hsg
      · subst hs2
        refine ⟨?_, fun sg hsg => ?_⟩
        · rw [Jso.get_del_ne _ "lon" k hklo, Jso.get_del_ne _ "lat" k hkla,
            Jso.get_del_ne _ "zoom" k hkz]
          exact hv1
        · rw [hmseg] at hsg
          injection hsg with he
          rw [← he]
          exact hampseg
    have hvnull : v ≠ Value.null := by
      intro he
      rw [he] at ht
      exact absurd ht (by decide)
    have hv4 : (ps.foldl fmtStepS (filterNulls s2)).get k = some (f v) :=
      foldS_get_point k fmt f v hf ht ps hnd hmem _ (filterNulls_get_some s2 k v hvnull hboth.1)
    have hP : relPairV (k, f v) ∈
        (sortByKeys (ps.foldl fmtStepS (filterNulls s2))).map relPairV :=
      List.mem_map_of_mem relPairV
        ((sortByKeys_perm _).mem_iff.mpr (Jso.get_some_mem _ _ _ hv4))
    have hPne : relPairV (k, f v) ≠ [] := by
      by_cases hfv : f v = Value.null
      · rw [hfv, relPairV_null]
        exact encWith_ne_nil relaxedUnreserved k.data
          (fun hd => hkne (congrArg String.mk hd))
      · rw [relPairV_not_null k (f v) hfv]
        simp
    have hmem2 := qsSeg_mem_assemble L mseg _ (relPairV (k, f v)) hampL hboth.2 hP hPne
    rw [hodata]
    exact hmem2

/-- C8 counterexample: a falsy value is not formatted.  With a formatter
that rewrites every value to `"FMT"`, the value `0` is still encoded
verbatim. -/
theorem formatter_falsy_cex :
    stringifyOn [("a", ⟨some (fun _ => Value.str "FMT"), none⟩)]
      [("a", Value.num ⟨0, 0⟩)] = .ok "a=0" := by
  decide

/-- C8 witness: the formatter rewriting everything to `"FMT"` applied to
the truthy value `"x"` of key `a` yields the segment `a=FMT`. -/
theorem formatter_stringify_truthy_witness :
    relPairV ("a", Value.str "FMT") ∈ splitChar '&' ("a=FMT" : String).data :=
  formatter_stringify_truthy [("a", ⟨some (fun _ => Value.str "FMT"), none⟩)]
    [("a", Value.str "x")] "a" ⟨some (fun _ => Value.str "FMT"), none⟩
    (fun _ => Value.str "FMT") (Value.str "x") "a=FMT"
    (by decide) (List.mem_singleton.mpr rfl) rfl
    (by decide) (by decide) (by decide) (by decide) (by decide)
    rfl (by decide) (by decide)

end Geowiki
